import Mathlib

/-!
Verification development for the db-auto-importer repository.

The Go sources are shallowly embedded: Go maps become association lists
(with explicit key-uniqueness hypotheses where Go map semantics matters),
Go interface values produced by value conversion become the inductive type
DBValue, machine integers become Int with explicit range checks where the
source checks ranges, and the effectful database operations of the
parent-record resolver and the CSV import driver become pure state passing
over an explicit event trace together with abstract oracles for the
existence probe, statement execution and random value generation.
-/

namespace DBAutoImporter

/-- Embedding of sql.NullString from database/sql. -/
structure NullString where
  str : String
  valid : Bool
deriving DecidableEq, Repr

/-- Embedding of ColumnDataType from internal/database/common.go. -/
inductive ColumnDataType where
  | UnknownType
  | StringType
  | IntegerType
  | FloatType
  | BooleanType
  | DateType
  | TimestampType
deriving DecidableEq, Repr

open ColumnDataType

/-- Embedding of the String method on ColumnDataType. -/
def ColumnDataType.name : ColumnDataType → String
  | StringType => "STRING"
  | IntegerType => "INTEGER"
  | FloatType => "FLOAT"
  | BooleanType => "BOOLEAN"
  | DateType => "DATE"
  | TimestampType => "TIMESTAMP"
  | UnknownType => "UNKNOWN"

/-- Embedding of ColumnInfo from internal/database/common.go. -/
structure ColumnInfo where
  columnName : String
  dataType : ColumnDataType
  isNullable : Bool
  columnDefault : NullString
deriving DecidableEq, Repr

/-- Embedding of ForeignKeyInfo from internal/database/common.go. -/
structure ForeignKeyInfo where
  constraintName : String
  tableName : String
  columnName : String
  foreignTableName : String
  foreignColumnName : String
deriving DecidableEq, Repr

/-- Embedding of DBInfo from internal/database/common.go. -/
structure DBInfo where
  tableName : String
  columns : List ColumnInfo
  primaryKeyColumns : List String
  uniqueKeyColumns : List (List String)
  foreignKeys : List ForeignKeyInfo
deriving DecidableEq, Repr

/-- The SchemaModel map from table name to DBInfo, embedded as an
association list whose order records the iteration order of the Go map. -/
abbrev Schema := List (String × DBInfo)

/-- Keys of the schema map. -/
def schemaKeys (s : Schema) : List String := s.map Prod.fst

/-- Map lookup on the schema, first matching key. -/
def schemaFind (s : Schema) (k : String) : Option DBInfo :=
  (s.find? (fun p => p.1 = k)).map Prod.snd

/-- Embedding of ParseDataType from internal/database/common.go: the switch
on strings.ToLower of the engine-native type name. -/
def ParseDataType (dbType : String) : ColumnDataType :=
  let lowerDbType := dbType.toLower
  if lowerDbType ∈ ["text", "character varying", "varchar", "char", "character",
      "clob", "graphic", "vargraphic", "long vargraphic"] then StringType
  else if lowerDbType ∈ ["integer", "smallint", "bigint", "int"] then IntegerType
  else if lowerDbType ∈ ["numeric", "decimal", "real", "double precision",
      "double", "decfloat", "float"] then FloatType
  else if lowerDbType ∈ ["boolean", "bool"] then BooleanType
  else if lowerDbType = "date" then DateType
  else if lowerDbType ∈ ["timestamp without time zone", "timestamp with time zone",
      "timestamp", "time"] then TimestampType
  else UnknownType

/-- Calendar timestamp, embedding the fields of time.Time that the program
observes: civil date and clock, nanoseconds and the zone offset in minutes. -/
structure TimeRep where
  year : Nat
  month : Nat
  day : Nat
  hour : Nat
  minute : Nat
  second : Nat
  nanos : Nat
  offsetMinutes : Int
deriving DecidableEq, Repr

/-- The zero value of time.Time: January 1 of year 1, midnight UTC. -/
def zeroTime : TimeRep := ⟨1, 1, 1, 0, 0, 0, 0, 0⟩

/-- A typed value as produced by ConvertToDBType; vNull embeds the Go nil
interface value. Go float64 is idealized as an exact rational: the decimal
parsing and formatting the program performs is modelled without binary
rounding, which no claim in scope distinguishes. -/
inductive DBValue where
  | vNull
  | vStr (s : String)
  | vInt (n : Int)
  | vFloat (q : Rat)
  | vBool (b : Bool)
  | vTime (t : TimeRep)
deriving DecidableEq, Repr

open DBValue

/-- Decimal digit test. -/
def isDigit (c : Char) : Bool := '0' ≤ c ∧ c ≤ '9'

/-- Value of a list of decimal digits. -/
def digitsToNat (cs : List Char) : Nat :=
  cs.foldl (fun a c => a * 10 + (c.toNat - 48)) 0

/-- Embedding of strconv.ParseInt with base 10 and bit size 64: optional
sign, nonempty digit run, 64-bit signed range check. -/
def parseInt64 (s : String) : Except String Int :=
  let cs := s.data
  let signAndDigits : Int × List Char :=
    match cs with
    | '+' :: rest => (1, rest)
    | '-' :: rest => (-1, rest)
    | _ => (1, cs)
  let sign := signAndDigits.1
  let ds := signAndDigits.2
  if ds.isEmpty ∨ ¬ ds.all isDigit then
    .error ("invalid integer syntax: " ++ s)
  else
    let v : Int := sign * (digitsToNat ds : Int)
    if v < -(2 ^ 63) ∨ (2 ^ 63 : Int) ≤ v then
      .error ("integer value out of range: " ++ s)
    else
      .ok v

/-- Embedding of the decimal forms accepted by strconv.ParseFloat with bit
size 64: optional sign, digits with optional fraction, optional exponent.
The value is kept as an exact rational; the special inf, nan, hex and
underscore forms of the Go parser are outside the modelled grammar, and no
claim in scope depends on them. -/
def parseFloatRat (s : String) : Except String Rat :=
  let cs := s.data
  let signAndRest : Rat × List Char :=
    match cs with
    | '+' :: rest => (1, rest)
    | '-' :: rest => (-1, rest)
    | _ => (1, cs)
  let sign := signAndRest.1
  let rest := signAndRest.2
  let eIdx := rest.findIdx? (fun c => c = 'e' ∨ c = 'E')
  let mant := match eIdx with
    | none => rest
    | some i => rest.take i
  let expo : Option (List Char) := match eIdx with
    | none => none
    | some i => some (rest.drop (i + 1))
  let dotIdx := mant.findIdx? (fun c => c = '.')
  let ip := match dotIdx with
    | none => mant
    | some i => mant.take i
  let fp := match dotIdx with
    | none => ([] : List Char)
    | some i => mant.drop (i + 1)
  if fp.any (fun c => c = '.') ∨ ¬ ip.all isDigit ∨ ¬ fp.all isDigit ∨
      (ip.isEmpty ∧ fp.isEmpty) then
    .error ("invalid float syntax: " ++ s)
  else
    let mval : Rat := (digitsToNat (ip ++ fp) : Rat) / ((10 : Rat) ^ fp.length)
    match expo with
    | none => .ok (sign * mval)
    | some ecs =>
      let esignAndDigits : Bool × List Char :=
        match ecs with
        | '+' :: r => (true, r)
        | '-' :: r => (false, r)
        | _ => (true, ecs)
      let eds := esignAndDigits.2
      if eds.isEmpty ∨ ¬ eds.all isDigit then
        .error ("invalid float exponent syntax: " ++ s)
      else
        let e := digitsToNat eds
        if esignAndDigits.1 then .ok (sign * mval * (10 : Rat) ^ e)
        else .ok (sign * mval / (10 : Rat) ^ e)

/-- Embedding of strconv.ParseBool: the exact literal set it accepts. -/
def parseBool (s : String) : Except String Bool :=
  if s ∈ ["1", "t", "T", "TRUE", "true", "True"] then .ok true
  else if s ∈ ["0", "f", "F", "FALSE", "false", "False"] then .ok false
  else .error ("invalid boolean syntax: " ++ s)

/-- Length of a month, with Gregorian leap years, as validated by
time.Parse. -/
def daysInMonth (year month : Nat) : Nat :=
  if month = 2 then
    if (year % 4 = 0 ∧ year % 100 ≠ 0) ∨ year % 400 = 0 then 29 else 28
  else if month ∈ [4, 6, 9, 11] then 30
  else 31

/-- Range validation of a civil date as performed by time.Parse. -/
def validDate (y m d : Nat) : Bool :=
  1 ≤ m ∧ m ≤ 12 ∧ 1 ≤ d ∧ d ≤ daysInMonth y m

/-- Range validation of a clock reading as performed by time.Parse. -/
def validClock (h mi s : Nat) : Bool :=
  h ≤ 23 ∧ mi ≤ 59 ∧ s ≤ 59

/-- Reads exactly n decimal digits from the front of the character list. -/
def parseFixedDigits (cs : List Char) (n : Nat) : Option (Nat × List Char) :=
  let ds := cs.take n
  if ds.length = n ∧ ds.all isDigit then some (digitsToNat ds, cs.drop n)
  else none

/-- Consumes one expected literal character. -/
def expectChar (cs : List Char) (c : Char) : Option (List Char) :=
  match cs with
  | c2 :: rest => if c2 = c then some rest else none
  | _ => none

/-- Reads an optional fractional-second part, as time.Parse accepts after a
seconds field: a dot followed by at least one digit, truncated to
nanosecond precision. -/
def takeFrac (cs : List Char) : Option (Nat × List Char) :=
  match cs with
  | '.' :: c :: rest =>
    if isDigit c then
      let ds := (c :: rest).takeWhile isDigit
      some (digitsToNat ((ds ++ List.replicate 9 '0').take 9), (c :: rest).drop ds.length)
    else none
  | '.' :: [] => none
  | _ => some (0, cs)

/-- Reads the RFC3339 zone suffix: Z or a signed hour-minute offset. -/
def parseOffset : List Char → Option Int
  | ['Z'] => some 0
  | [sn, h1, h2, ':', m1, m2] =>
    if (sn = '+' ∨ sn = '-') ∧ [h1, h2, m1, m2].all isDigit then
      let hrs := digitsToNat [h1, h2]
      let mins := digitsToNat [m1, m2]
      if hrs ≤ 23 ∧ mins ≤ 59 then
        let v : Int := (hrs * 60 + mins : Nat)
        some (if sn = '+' then v else -v)
      else none
    else none
  | _ => none

/-- Reads a date-and-clock prefix with the given separator between the date
and the clock, the common core of the timestamp layouts. -/
def parseDateTimeParts (sep : Char) (cs : List Char) :
    Option (Nat × Nat × Nat × Nat × Nat × Nat × List Char) := do
  let (y, cs) ← parseFixedDigits cs 4
  let cs ← expectChar cs '-'
  let (mo, cs) ← parseFixedDigits cs 2
  let cs ← expectChar cs '-'
  let (d, cs) ← parseFixedDigits cs 2
  let cs ← expectChar cs sep
  let (h, cs) ← parseFixedDigits cs 2
  let cs ← expectChar cs ':'
  let (mi, cs) ← parseFixedDigits cs 2
  let cs ← expectChar cs ':'
  let (sec, cs) ← parseFixedDigits cs 2
  pure (y, mo, d, h, mi, sec, cs)

/-- Embedding of time.Parse with the layout 2006-01-02: a bare calendar
date, range checked, interpreted in UTC. -/
def parseDate (s : String) : Except String TimeRep :=
  match s.data with
  | [y1, y2, y3, y4, '-', m1, m2, '-', d1, d2] =>
    if [y1, y2, y3, y4, m1, m2, d1, d2].all isDigit then
      let y := digitsToNat [y1, y2, y3, y4]
      let m := digitsToNat [m1, m2]
      let d := digitsToNat [d1, d2]
      if validDate y m d then .ok ⟨y, m, d, 0, 0, 0, 0, 0⟩
      else .error ("failed to convert date, value out of range: " ++ s)
    else .error ("failed to convert date: " ++ s)
  | _ => .error ("failed to convert date, expected YYYY-MM-DD: " ++ s)

/-- Embedding of time.Parse with the RFC3339 layout: date, T, clock,
optional fraction, then Z or a signed offset, all range checked. -/
def parseRFC3339 (s : String) : Except String TimeRep :=
  match parseDateTimeParts 'T' s.data with
  | none => .error ("not RFC3339: " ++ s)
  | some (y, mo, d, h, mi, sec, rest) =>
    match takeFrac rest with
    | none => .error ("not RFC3339: " ++ s)
    | some (ns, rest2) =>
      match parseOffset rest2 with
      | none => .error ("not RFC3339: " ++ s)
      | some off =>
        if validDate y mo d ∧ validClock h mi sec then
          .ok ⟨y, mo, d, h, mi, sec, ns, off⟩
        else .error ("RFC3339 value out of range: " ++ s)

/-- Embedding of time.Parse with the fallback layout 2006-01-02 15:04:05:
space separated date and clock, optional fraction, no zone, UTC. -/
def parseLayoutTimestamp (s : String) : Except String TimeRep :=
  match parseDateTimeParts ' ' s.data with
  | none => .error ("not a timestamp: " ++ s)
  | some (y, mo, d, h, mi, sec, rest) =>
    match takeFrac rest with
    | some (ns, []) =>
      if validDate y mo d ∧ validClock h mi sec then
        .ok ⟨y, mo, d, h, mi, sec, ns, 0⟩
      else .error ("timestamp value out of range: " ++ s)
    | _ => .error ("not a timestamp: " ++ s)

/-- Embedding of ConvertToDBType from internal/database/common.go: the three
sequential empty-input rules followed by the per-type parse switch. -/
def ConvertToDBType (csvValue : String) (dataType : ColumnDataType)
    (isNullable : Bool) (columnDefault : NullString) : Except String DBValue :=
  if csvValue = "" ∧ isNullable then .ok vNull
  else
    let csvValue := if csvValue = "" ∧ columnDefault.valid then columnDefault.str else csvValue
    if csvValue = "" ∧ ¬ isNullable then
      match dataType with
      | StringType => .ok (vStr "")
      | IntegerType => .ok (vInt 0)
      | FloatType => .ok (vFloat 0)
      | BooleanType => .ok (vBool false)
      | DateType => .ok (vTime zeroTime)
      | TimestampType => .ok (vTime zeroTime)
      | UnknownType =>
        .error ("non-nullable column with no default and empty CSV value for type " ++
          UnknownType.name)
    else
      match dataType with
      | StringType => .ok (vStr csvValue)
      | IntegerType =>
        match parseInt64 csvValue with
        | .ok v => .ok (vInt v)
        | .error _ => .error ("failed to convert to integer: " ++ csvValue)
      | FloatType =>
        match parseFloatRat csvValue with
        | .ok v => .ok (vFloat v)
        | .error _ => .error ("failed to convert to float: " ++ csvValue)
      | BooleanType =>
        match parseBool csvValue with
        | .ok v => .ok (vBool v)
        | .error _ =>
          let lowerVal := csvValue.toLower
          if lowerVal ∈ ["true", "t", "1", "yes", "y"] then .ok (vBool true)
          else if lowerVal ∈ ["false", "f", "0", "no", "n"] then .ok (vBool false)
          else .error ("failed to convert to boolean: " ++ csvValue)
      | DateType =>
        match parseDate csvValue with
        | .ok v => .ok (vTime v)
        | .error e => .error e
      | TimestampType =>
        match parseRFC3339 csvValue with
        | .ok v => .ok (vTime v)
        | .error _ =>
          match parseLayoutTimestamp csvValue with
          | .ok v => .ok (vTime v)
          | .error _ => .error ("failed to convert to timestamp: " ++ csvValue)
      | UnknownType =>
        .error ("unsupported data type UNKNOWN for value: " ++ csvValue)

/-! Helper lemmas about the value converter. -/

theorem parseBool_ok_true_toLower {s : String} (h : parseBool s = .ok true) :
    s.toLower ∈ ["true", "t", "1", "yes", "y"] := by
  unfold parseBool at h
  split_ifs at h with h1 h2
  · simp only [List.mem_cons, List.not_mem_nil, or_false] at h1
    rcases h1 with h1 | h1 | h1 | h1 | h1 | h1 <;> subst h1 <;>
      (simp only [String.toLower, String.map_eq]; decide)
  · exact absurd h (by simp)

theorem parseBool_ok_false_toLower {s : String} (h : parseBool s = .ok false) :
    s.toLower ∈ ["false", "f", "0", "no", "n"] := by
  unfold parseBool at h
  split_ifs at h with h1 h2
  · exact absurd h (by simp)
  · simp only [List.mem_cons, List.not_mem_nil, or_false] at h2
    rcases h2 with h2 | h2 | h2 | h2 | h2 | h2 <;> subst h2 <;>
      (simp only [String.toLower, String.map_eq]; decide)

theorem toLower_true_false_disjoint {s : String}
    (h1 : s.toLower ∈ ["true", "t", "1", "yes", "y"])
    (h2 : s.toLower ∈ ["false", "f", "0", "no", "n"]) : False := by
  simp only [List.mem_cons, List.not_mem_nil, or_false] at h1 h2
  rcases h1 with h1 | h1 | h1 | h1 | h1 <;> rw [h1] at h2 <;> simp at h2

theorem convert_nonempty_int (s : String) (hs : s ≠ "") (n : Bool) (d : NullString) :
    ConvertToDBType s IntegerType n d =
      (match parseInt64 s with
        | .ok v => .ok (vInt v)
        | .error _ => .error ("failed to convert to integer: " ++ s)) := by
  simp [ConvertToDBType, hs]

theorem convert_nonempty_float (s : String) (hs : s ≠ "") (n : Bool) (d : NullString) :
    ConvertToDBType s FloatType n d =
      (match parseFloatRat s with
        | .ok v => .ok (vFloat v)
        | .error _ => .error ("failed to convert to float: " ++ s)) := by
  simp [ConvertToDBType, hs]

theorem convert_nonempty_bool (s : String) (hs : s ≠ "") (n : Bool) (d : NullString) :
    ConvertToDBType s BooleanType n d =
      (match parseBool s with
        | .ok v => .ok (vBool v)
        | .error _ =>
          if s.toLower ∈ ["true", "t", "1", "yes", "y"] then .ok (vBool true)
          else if s.toLower ∈ ["false", "f", "0", "no", "n"] then .ok (vBool false)
          else .error ("failed to convert to boolean: " ++ s)) := by
  simp [ConvertToDBType, hs]

theorem convert_nonempty_date (s : String) (hs : s ≠ "") (n : Bool) (d : NullString) :
    ConvertToDBType s DateType n d =
      (match parseDate s with
        | .ok v => .ok (vTime v)
        | .error e => .error e) := by
  simp [ConvertToDBType, hs]

theorem convert_nonempty_timestamp (s : String) (hs : s ≠ "") (n : Bool) (d : NullString) :
    ConvertToDBType s TimestampType n d =
      (match parseRFC3339 s with
        | .ok v => .ok (vTime v)
        | .error _ =>
          match parseLayoutTimestamp s with
          | .ok v => .ok (vTime v)
          | .error _ => .error ("failed to convert to timestamp: " ++ s)) := by
  simp [ConvertToDBType, hs]

/-- C9: ParseDataType is a pure total function matching case-insensitively
against the fixed synonym table, with every listed synonym group mapped to
its canonical type and every unrecognized input mapped to UNKNOWN; it never
returns an error for any input. -/
theorem c9_parse_data_type_total (s : String) :
    (s.toLower ∈ ["text", "character varying", "varchar", "char", "character",
        "clob", "graphic", "vargraphic", "long vargraphic"] →
      ParseDataType s = StringType) ∧
    (s.toLower ∈ ["integer", "smallint", "bigint", "int"] →
      ParseDataType s = IntegerType) ∧
    (s.toLower ∈ ["numeric", "decimal", "real", "double precision",
        "double", "decfloat", "float"] →
      ParseDataType s = FloatType) ∧
    (s.toLower ∈ ["boolean", "bool"] → ParseDataType s = BooleanType) ∧
    (s.toLower = "date" → ParseDataType s = DateType) ∧
    (s.toLower ∈ ["timestamp without time zone", "timestamp with time zone",
        "timestamp", "time"] →
      ParseDataType s = TimestampType) ∧
    (s.toLower ∉
        ["text", "character varying", "varchar", "char", "character",
          "clob", "graphic", "vargraphic", "long vargraphic"] ++
        ["integer", "smallint", "bigint", "int"] ++
        ["numeric", "decimal", "real", "double precision",
          "double", "decfloat", "float"] ++
        ["boolean", "bool"] ++ ["date"] ++
        ["timestamp without time zone", "timestamp with time zone",
          "timestamp", "time"] →
      ParseDataType s = UnknownType) := by
  refine ⟨?_, ?_, ?_, ?_, ?_, ?_, ?_⟩ <;> intro h
  · simp only [List.mem_cons, List.not_mem_nil, or_false] at h
    rcases h with h | h | h | h | h | h | h | h | h <;>
      (unfold ParseDataType; rw [h]; decide)
  · simp only [List.mem_cons, List.not_mem_nil, or_false] at h
    rcases h with h | h | h | h <;> (unfold ParseDataType; rw [h]; decide)
  · simp only [List.mem_cons, List.not_mem_nil, or_false] at h
    rcases h with h | h | h | h | h | h | h <;> (unfold ParseDataType; rw [h]; decide)
  · simp only [List.mem_cons, List.not_mem_nil, or_false] at h
    rcases h with h | h <;> (unfold ParseDataType; rw [h]; decide)
  · unfold ParseDataType; rw [h]; decide
  · simp only [List.mem_cons, List.not_mem_nil, or_false] at h
    rcases h with h | h | h | h <;> (unfold ParseDataType; rw [h]; decide)
  · simp only [List.append_assoc, List.mem_append, not_or] at h
    obtain ⟨h1, h2, h3, h4, h5, h6⟩ := h
    unfold ParseDataType
    rw [if_neg h1, if_neg h2, if_neg h3, if_neg h4,
      if_neg (by simpa using h5), if_neg h6]

/-- Witness for C9 at concrete inputs. -/
theorem c9_parse_data_type_total_witness :
    ParseDataType "VarChar" = StringType ∧ ParseDataType "weird" = UnknownType :=
  ⟨(c9_parse_data_type_total "VarChar").1
      (by simp only [String.toLower, String.map_eq]; decide),
   (c9_parse_data_type_total "weird").2.2.2.2.2.2
      (by simp only [String.toLower, String.map_eq]; decide)⟩

/-- C6: ConvertToDBType applies its rules in strict order: empty input on a
nullable column returns typed null even when a default exists; empty input
on a non-nullable column with a valid default substitutes the default text
and converts it; empty input on a non-nullable column with no default
returns the type-specific zero value and errors for UNKNOWN; non-empty
input parses per type, with STRING passthrough, INTEGER base-10, FLOAT
decimal, BOOLEAN accepting the true and false token sets case-insensitively,
DATE as YYYY-MM-DD, TIMESTAMP as RFC3339 falling back to the space
separated layout, any parse failure an error, and UNKNOWN always an
error. -/
theorem c6_convert_to_db_type_rules :
    (∀ dt d, ConvertToDBType "" dt true d = .ok vNull) ∧
    (∀ dt (d : NullString), d.valid = true →
      ConvertToDBType "" dt false d = ConvertToDBType d.str dt false d) ∧
    (∀ d : NullString, d.valid = false →
      ConvertToDBType "" StringType false d = .ok (vStr "") ∧
      ConvertToDBType "" IntegerType false d = .ok (vInt 0) ∧
      ConvertToDBType "" FloatType false d = .ok (vFloat 0) ∧
      ConvertToDBType "" BooleanType false d = .ok (vBool false) ∧
      ConvertToDBType "" DateType false d = .ok (vTime zeroTime) ∧
      ConvertToDBType "" TimestampType false d = .ok (vTime zeroTime) ∧
      (∃ msg, ConvertToDBType "" UnknownType false d = .error msg)) ∧
    (∀ s n d, s ≠ "" → ConvertToDBType s StringType n d = .ok (vStr s)) ∧
    (∀ s n d, s ≠ "" →
      (∀ i, ConvertToDBType s IntegerType n d = .ok (vInt i) ↔ parseInt64 s = .ok i) ∧
      (∀ e, parseInt64 s = .error e →
        ∃ msg, ConvertToDBType s IntegerType n d = .error msg)) ∧
    (∀ s n d, s ≠ "" →
      (∀ q, ConvertToDBType s FloatType n d = .ok (vFloat q) ↔ parseFloatRat s = .ok q) ∧
      (∀ e, parseFloatRat s = .error e →
        ∃ msg, ConvertToDBType s FloatType n d = .error msg)) ∧
    (∀ s n d, s ≠ "" →
      (ConvertToDBType s BooleanType n d = .ok (vBool true) ↔
        s.toLower ∈ ["true", "t", "1", "yes", "y"]) ∧
      (ConvertToDBType s BooleanType n d = .ok (vBool false) ↔
        s.toLower ∈ ["false", "f", "0", "no", "n"]) ∧
      (s.toLower ∉ ["true", "t", "1", "yes", "y"] ++ ["false", "f", "0", "no", "n"] →
        ∃ msg, ConvertToDBType s BooleanType n d = .error msg)) ∧
    (∀ s n d, s ≠ "" →
      (∀ t, ConvertToDBType s DateType n d = .ok (vTime t) ↔ parseDate s = .ok t) ∧
      (∀ e, parseDate s = .error e →
        ∃ msg, ConvertToDBType s DateType n d = .error msg)) ∧
    (∀ s n d, s ≠ "" →
      (∀ t, ConvertToDBType s TimestampType n d = .ok (vTime t) ↔
        (parseRFC3339 s = .ok t ∨
          ((∃ e, parseRFC3339 s = .error e) ∧ parseLayoutTimestamp s = .ok t)))) ∧
    (∀ s n d, s ≠ "" → ∃ msg, ConvertToDBType s UnknownType n d = .error msg) := by
  refine ⟨?_, ?_, ?_, ?_, ?_, ?_, ?_, ?_, ?_, ?_⟩
  · intro dt d
    simp [ConvertToDBType]
  · intro dt d hd
    by_cases hstr : d.str = ""
    · simp [ConvertToDBType, hd, hstr]
    · simp [ConvertToDBType, hd, hstr]
  · intro d hd
    refine ⟨?_, ?_, ?_, ?_, ?_, ?_, ?_⟩ <;> simp [ConvertToDBType, hd]
  · intro s n d hs
    simp [ConvertToDBType, hs]
  · intro s n d hs
    rw [convert_nonempty_int s hs n d]
    constructor
    · intro i
      cases hp : parseInt64 s <;> simp [hp]
    · intro e hp
      rw [hp]
      exact ⟨_, rfl⟩
  · intro s n d hs
    rw [convert_nonempty_float s hs n d]
    constructor
    · intro q
      cases hp : parseFloatRat s <;> simp [hp]
    · intro e hp
      rw [hp]
      exact ⟨_, rfl⟩
  · intro s n d hs
    rw [convert_nonempty_bool s hs n d]
    refine ⟨?_, ?_, ?_⟩
    · cases hp : parseBool s with
      | ok b =>
        cases b
        · simp only [Except.ok.injEq, vBool.injEq]
          constructor
          · intro hfalse; exact absurd hfalse.symm (by decide)
          · intro hmem
            exact absurd (toLower_true_false_disjoint hmem (parseBool_ok_false_toLower hp)) id
        · simp only [Except.ok.injEq, vBool.injEq]
          exact ⟨fun _ => parseBool_ok_true_toLower hp, fun _ => trivial⟩
      | error e =>
        by_cases ht : s.toLower ∈ ["true", "t", "1", "yes", "y"]
        · simp [ht]
        · by_cases hf : s.toLower ∈ ["false", "f", "0", "no", "n"] <;> simp [ht, hf]
    · cases hp : parseBool s with
      | ok b =>
        cases b
        · simp only [Except.ok.injEq, vBool.injEq]
          exact ⟨fun _ => parseBool_ok_false_toLower hp, fun _ => trivial⟩
        · simp only [Except.ok.injEq, vBool.injEq]
          constructor
          · intro htrue; exact absurd htrue.symm (by decide)
          · intro hmem
            exact absurd (toLower_true_false_disjoint (parseBool_ok_true_toLower hp) hmem) id
      | error e =>
        by_cases ht : s.toLower ∈ ["true", "t", "1", "yes", "y"]
        · simp only [ht, if_true]
          constructor
          · intro hfalse
            exact absurd hfalse (by simp)
          · intro hmem
            exact absurd (toLower_true_false_disjoint ht hmem) id
        · by_cases hf : s.toLower ∈ ["false", "f", "0", "no", "n"] <;> simp [ht, hf]
    · intro hnot
      simp only [List.mem_append, not_or] at hnot
      cases hp : parseBool s with
      | ok b =>
        cases b
        · exact absurd (parseBool_ok_false_toLower hp) hnot.2
        · exact absurd (parseBool_ok_true_toLower hp) hnot.1
      | error e =>
        rw [if_neg hnot.1, if_neg hnot.2]
        exact ⟨_, rfl⟩
  · intro s n d hs
    rw [convert_nonempty_date s hs n d]
    constructor
    · intro t
      cases hp : parseDate s <;> simp [hp]
    · intro e hp
      rw [hp]
      exact ⟨_, rfl⟩
  · intro s n d hs
    rw [convert_nonempty_timestamp s hs n d]
    intro t
    cases hp : parseRFC3339 s with
    | ok v => simp [hp]
    | error e =>
      cases hq : parseLayoutTimestamp s <;> simp [hp, hq]
  · intro s n d hs
    refine ⟨"unsupported data type UNKNOWN for value: " ++ s, ?_⟩
    simp [ConvertToDBType, hs]

/-- Witness for C6 at concrete inputs. -/
theorem c6_convert_to_db_type_rules_witness :
    ConvertToDBType "" IntegerType true ⟨"", false⟩ = .ok vNull ∧
    ConvertToDBType "" IntegerType false ⟨"7", true⟩ = ConvertToDBType "7" IntegerType false ⟨"7", true⟩ ∧
    ConvertToDBType "" FloatType false ⟨"", false⟩ = .ok (vFloat 0) ∧
    ConvertToDBType "tRuE" BooleanType false ⟨"", false⟩ = .ok (vBool true) :=
  ⟨c6_convert_to_db_type_rules.1 IntegerType ⟨"", false⟩,
   c6_convert_to_db_type_rules.2.1 IntegerType ⟨"7", true⟩ rfl,
   (c6_convert_to_db_type_rules.2.2.1 ⟨"", false⟩ rfl).2.2.1,
   ((c6_convert_to_db_type_rules.2.2.2.2.2.2.1 "tRuE" false ⟨"", false⟩ (by decide)).1).mpr
     (by simp only [String.toLower, String.map_eq]; decide)⟩

/-! Dependency graph and topological sort, from internal/graph. The Node
pointers of the Go code are replaced by table names: the Nodes map is keyed
by table name, so a pointer into it is identified by the name of the node
it points to. The list order of nodes and counters records the iteration
order of the corresponding Go maps. -/

/-- Embedding of Node from internal/graph: edges point to the children that
depend on this table, inDegree counts the foreign keys this table declares. -/
structure Node where
  tableName : String
  edges : List String
  inDegree : Int
deriving DecidableEq, Repr

/-- Membership test in the nodes map. -/
def hasNode (nodes : List Node) (name : String) : Bool :=
  nodes.any (fun nd => nd.tableName = name)

/-- Effect of one foreign key on one node of the map: the parent node gets
the child appended to its edge list, the child node gets its in-degree
incremented; a self-referencing foreign key applies both. -/
def applyFKEdge (fk : ForeignKeyInfo) (nd : Node) : Node :=
  let nd2 := if nd.tableName = fk.foreignTableName
    then { nd with edges := nd.edges ++ [fk.tableName] } else nd
  if nd2.tableName = fk.tableName
    then { nd2 with inDegree := nd2.inDegree + 1 } else nd2

/-- One iteration of the foreign-key loop of NewGraph: when both the child
and the parent table have nodes, append the child to the parent node edge
list and increment the child node in-degree; otherwise skip with a
warning. -/
def addForeignKeyEdge (nodes : List Node) (fk : ForeignKeyInfo) : List Node :=
  if hasNode nodes fk.tableName ∧ hasNode nodes fk.foreignTableName then
    nodes.map (applyFKEdge fk)
  else nodes

/-- All foreign keys of the schema in map iteration order, as the nested
loops of NewGraph visit them. -/
def schemaForeignKeys (s : Schema) : List ForeignKeyInfo :=
  (s.map (fun p => p.2.foreignKeys)).flatten

/-- Embedding of NewGraph from internal/graph: one node per schema key,
then the foreign-key loop. -/
def NewGraph (s : Schema) : List Node :=
  (schemaForeignKeys s).foldl addForeignKeyEdge
    (s.map (fun p => { tableName := p.1, edges := [], inDegree := 0 }))

/-- Lookup in the currentInDegrees map; a missing key reads as the Go zero
value 0. -/
def cidLookup (m : List (String × Int)) (k : String) : Int :=
  match m.find? (fun p => p.1 = k) with
  | some p => p.2
  | none => 0

/-- Decrement in the currentInDegrees map; on a missing key the Go map
write creates the entry with value -1. -/
def cidDecr (m : List (String × Int)) (k : String) : List (String × Int) :=
  if m.any (fun p => p.1 = k) then
    m.map (fun p => if p.1 = k then (p.1, p.2 - 1) else p)
  else m ++ [(k, -1)]

/-- Number of entries with a positive counter; the termination measure of
the drain loop. -/
def posCount (m : List (String × Int)) : Nat :=
  m.countP (fun p => decide (1 ≤ p.2))

theorem posCount_cidDecr_le (m : List (String × Int)) (k : String) :
    posCount (cidDecr m k) ≤ posCount m := by
  unfold cidDecr posCount
  split_ifs with h
  · rw [List.countP_map]
    refine List.countP_mono_left ?_
    intro p _ hp
    simp only [Function.comp] at hp
    split_ifs at hp with hk
    · simp only [decide_eq_true_eq] at hp ⊢
      omega
    · exact hp
  · rw [List.countP_append]
    simp

theorem posCount_cidDecr_lt (m : List (String × Int)) (k : String)
    (h : cidLookup (cidDecr m k) k = 0) : posCount (cidDecr m k) < posCount m := by
  by_cases hany : m.any (fun p => p.1 = k)
  case neg =>
    exfalso
    rw [cidDecr, if_neg hany, cidLookup] at h
    have hfind : (m ++ [(k, -1)]).find? (fun p => decide (p.1 = k)) = some (k, -1) := by
      rw [List.find?_append]
      have : m.find? (fun p => decide (p.1 = k)) = none := by
        rw [List.find?_eq_none]
        intro x hx hpx
        exact hany (List.any_eq_true.mpr ⟨x, hx, hpx⟩)
      rw [this]
      simp
    rw [hfind] at h
    simp at h
  case pos =>
    obtain ⟨x, hxm, hxk⟩ := List.any_eq_true.mp hany
    have hsome : (m.find? (fun p => decide (p.1 = k))).isSome := by
      rw [List.find?_isSome]
      exact ⟨x, hxm, hxk⟩
    obtain ⟨p₀, hp₀⟩ := Option.isSome_iff_exists.mp hsome
    have hp₀k : p₀.1 = k := by simpa using List.find?_some hp₀
    rw [cidDecr, if_pos hany] at h ⊢
    set f : String × Int → String × Int := fun p => if p.1 = k then (p.1, p.2 - 1) else p with hf
    have hcomp : ((fun p : String × Int => decide (p.1 = k)) ∘ f) =
        (fun p : String × Int => decide (p.1 = k)) := by
      funext p
      by_cases hpk : p.1 = k <;> simp [hf, hpk]
    have hfind2 : (m.map f).find? (fun p => decide (p.1 = k)) = some (f p₀) := by
      rw [List.find?_map, hcomp, hp₀]
      rfl
    rw [cidLookup, hfind2] at h
    simp only [hf, hp₀k, if_pos] at h
    obtain ⟨-, l1, l2, hm, hl1⟩ := List.find?_eq_some.mp hp₀
    subst hm
    rw [posCount, posCount, List.map_append, List.map_cons,
      List.countP_append, List.countP_append, List.countP_cons, List.countP_cons]
    have h1 : List.countP (fun p => decide (1 ≤ p.2)) (l1.map f) ≤
        List.countP (fun p => decide (1 ≤ p.2)) l1 := by
      rw [List.countP_map]
      refine List.countP_mono_left ?_
      intro p _ hp
      simp only [Function.comp, hf] at hp
      split_ifs at hp with hk
      · simp only [decide_eq_true_eq] at hp ⊢
        omega
      · exact hp
    have h2 : List.countP (fun p => decide (1 ≤ p.2)) (l2.map f) ≤
        List.countP (fun p => decide (1 ≤ p.2)) l2 := by
      rw [List.countP_map]
      refine List.countP_mono_left ?_
      intro p _ hp
      simp only [Function.comp, hf] at hp
      split_ifs at hp with hk
      · simp only [decide_eq_true_eq] at hp ⊢
        omega
      · exact hp
    have hfp2 : f p₀ = (p₀.1, p₀.2 - 1) := by rw [hf]; simp [hp₀k]
    have hp2 : p₀.2 = 1 := by omega
    rw [hfp2, hp2]
    norm_num
    rw [List.countP_map] at h1
    rw [List.countP_map] at h2
    omega

/-- The inner neighbor loop of TopologicalSort: decrement each neighbor in
the currentInDegrees map and enqueue it when its counter reaches 0. -/
def processEdges : List (String × Int) → List String → List String →
    List (String × Int) × List String
  | counters, queue, [] => (counters, queue)
  | counters, queue, e :: rest =>
    let c2 := cidDecr counters e
    let q2 := if cidLookup c2 e = 0 then queue ++ [e] else queue
    processEdges c2 q2 rest

theorem processEdges_measure : ∀ (es : List String) (c : List (String × Int)) (q : List String),
    (processEdges c q es).2.length + 2 * posCount (processEdges c q es).1 ≤
      q.length + 2 * posCount c := by
  intro es
  induction es with
  | nil => intro c q; simp [processEdges]
  | cons e rest ih =>
    intro c q
    by_cases hz : cidLookup (cidDecr c e) e = 0
    · have h1 := posCount_cidDecr_lt c e hz
      have h2 := ih (cidDecr c e) (q ++ [e])
      calc (processEdges c q (e :: rest)).2.length +
            2 * posCount (processEdges c q (e :: rest)).1
          = (processEdges (cidDecr c e) (q ++ [e]) rest).2.length +
            2 * posCount (processEdges (cidDecr c e) (q ++ [e]) rest).1 := by
            simp [processEdges, hz]
        _ ≤ (q ++ [e]).length + 2 * posCount (cidDecr c e) := h2
        _ ≤ q.length + 2 * posCount c := by
            simp only [List.length_append, List.length_singleton]
            omega
    · have h1 := posCount_cidDecr_le c e
      have h2 := ih (cidDecr c e) q
      calc (processEdges c q (e :: rest)).2.length +
            2 * posCount (processEdges c q (e :: rest)).1
          = (processEdges (cidDecr c e) q rest).2.length +
            2 * posCount (processEdges (cidDecr c e) q rest).1 := by
            simp [processEdges, hz]
        _ ≤ q.length + 2 * posCount (cidDecr c e) := h2
        _ ≤ q.length + 2 * posCount c := by omega

/-- Edge list of the node with the given name, as read by the drain loop. -/
def nodeEdges (nodes : List Node) (t : String) : List String :=
  match nodes.find? (fun nd => nd.tableName = t) with
  | some nd => nd.edges
  | none => []

/-- The drain loop of TopologicalSort: dequeue a node, append it to the
order, then run the neighbor loop. -/
def drainQueue (nodes : List Node) : List String → List (String × Int) → List String → List String
  | [], _, order => order
  | t :: rest, counters, order =>
    let step := processEdges counters rest (nodeEdges nodes t)
    drainQueue nodes step.2 step.1 (order ++ [t])
  termination_by q c _ => q.length + 2 * posCount c
  decreasing_by
    have := processEdges_measure (nodeEdges nodes t) counters rest
    simp only [List.length_cons]
    omega

/-- Embedding of sort.Strings: any correct sort of strings under the total
lexicographic order produces this list. -/
def sortStrings (l : List String) : List String :=
  List.insertionSort (fun a b => a ≤ b) l

/-- The cycle error message of TopologicalSort. -/
def cycleErrorMsg : String :=
  "cycle detected in table dependencies. Cannot determine a valid import order."

/-- Embedding of TopologicalSort from the current internal/graph sources:
copy the in-degrees into a fresh map, seed the queue with the
lexicographically sorted zero in-degree nodes, drain, and report a cycle
when the order is shorter than the node count. -/
def TopologicalSort (nodes : List Node) : Except String (List String) :=
  let counters := nodes.map (fun nd => (nd.tableName, nd.inDegree))
  let seeds := sortStrings ((counters.filter (fun p => p.2 = 0)).map Prod.fst)
  let order := drainQueue nodes seeds counters []
  if order.length ≠ nodes.length then .error cycleErrorMsg
  else .ok order

/-- TopologicalSort with the enumeration order of the currentInDegrees map
made explicit: the seed collection loop ranges over a Go map, so the list
it ranges over is any permutation of the counter entries. -/
def topologicalSortWithSeedEnum (nodes : List Node) (seedEnum : List (String × Int)) :
    Except String (List String) :=
  let counters := nodes.map (fun nd => (nd.tableName, nd.inDegree))
  let seeds := sortStrings ((seedEnum.filter (fun p => p.2 = 0)).map Prod.fst)
  let order := drainQueue nodes seeds counters []
  if order.length ≠ nodes.length then .error cycleErrorMsg
  else .ok order

/-! Claims about graph construction and determinism. -/

theorem addForeignKeyEdge_names (nodes : List Node) (fk : ForeignKeyInfo) :
    (addForeignKeyEdge nodes fk).map (fun nd => nd.tableName) =
      nodes.map (fun nd => nd.tableName) := by
  unfold addForeignKeyEdge
  split_ifs with h
  · rw [List.map_map]
    refine List.map_congr_left ?_
    intro nd _
    dsimp only [Function.comp, applyFKEdge]
    split_ifs <;> rfl
  · rfl

theorem foldl_addForeignKeyEdge_names (fks : List ForeignKeyInfo) :
    ∀ nodes : List Node,
      ((fks.foldl addForeignKeyEdge nodes).map (fun nd => nd.tableName)) =
        nodes.map (fun nd => nd.tableName) := by
  induction fks with
  | nil => intro nodes; rfl
  | cons fk rest ih =>
    intro nodes
    rw [List.foldl_cons, ih, addForeignKeyEdge_names]

theorem newGraph_names (s : Schema) :
    (NewGraph s).map (fun nd => nd.tableName) = schemaKeys s := by
  rw [NewGraph, foldl_addForeignKeyEdge_names, List.map_map]
  rfl

theorem hasNode_iff (nodes : List Node) (n : String) :
    hasNode nodes n = true ↔ n ∈ nodes.map (fun nd => nd.tableName) := by
  rw [hasNode, List.any_eq_true]
  constructor
  · rintro ⟨nd, hnd, he⟩
    simp only [decide_eq_true_eq] at he
    exact he ▸ List.mem_map_of_mem _ hnd
  · intro h
    obtain ⟨nd, hnd, he⟩ := List.mem_map.mp h
    exact ⟨nd, hnd, by simp [he]⟩

/-- A foreign key is valid for the schema when both its owning table and
its referenced table are keys of the schema map. -/
def fkValid (s : Schema) (fk : ForeignKeyInfo) : Bool :=
  fk.tableName ∈ schemaKeys s ∧ fk.foreignTableName ∈ schemaKeys s

/-- The schema with every dangling foreign key removed. -/
def pruneDanglingForeignKeys (s : Schema) : Schema :=
  s.map (fun p => (p.1, { p.2 with foreignKeys := p.2.foreignKeys.filter (fkValid s) }))

theorem foldl_addForeignKeyEdge_filter (s : Schema) (fks : List ForeignKeyInfo) :
    ∀ nodes : List Node,
      nodes.map (fun nd => nd.tableName) = schemaKeys s →
      fks.foldl addForeignKeyEdge nodes =
        (fks.filter (fkValid s)).foldl addForeignKeyEdge nodes := by
  induction fks with
  | nil => intro nodes _; rfl
  | cons fk rest ih =>
    intro nodes hnames
    by_cases hv : fkValid s fk
    · rw [List.filter_cons_of_pos hv, List.foldl_cons, List.foldl_cons]
      refine ih (addForeignKeyEdge nodes fk) ?_
      rw [addForeignKeyEdge_names, hnames]
    · rw [List.filter_cons_of_neg hv, List.foldl_cons]
      have hskip : addForeignKeyEdge nodes fk = nodes := by
        rw [addForeignKeyEdge, if_neg]
        intro hcon
        apply hv
        rw [fkValid]
        simp only [decide_eq_true_eq, Bool.decide_and, Bool.and_eq_true]
        constructor
        · exact hnames ▸ (hasNode_iff nodes fk.tableName).mp hcon.1
        · exact hnames ▸ (hasNode_iff nodes fk.foreignTableName).mp hcon.2
      rw [hskip]
      exact ih nodes hnames

theorem schemaForeignKeys_filter_map (q : ForeignKeyInfo → Bool) :
    ∀ s : Schema,
      schemaForeignKeys
          (s.map (fun p => (p.1, { p.2 with foreignKeys := p.2.foreignKeys.filter q }))) =
        (schemaForeignKeys s).filter q := by
  intro s
  induction s with
  | nil => rfl
  | cons p rest ih =>
    simp only [schemaForeignKeys, List.map_cons, List.map_map, List.flatten_cons,
      List.filter_append] at ih ⊢
    rw [ih]

theorem schemaForeignKeys_prune (s : Schema) :
    schemaForeignKeys (pruneDanglingForeignKeys s) =
      (schemaForeignKeys s).filter (fkValid s) := by
  rw [pruneDanglingForeignKeys]
  exact schemaForeignKeys_filter_map (fkValid s) s

/-- C10: NewGraph is total over every SchemaModel: it creates exactly one
node per key of the schema map, a foreign key whose owning table or
referenced table has no node is skipped and contributes no edge and no
in-degree increment, and pruning every dangling foreign key from the
schema yields the identical graph. -/
theorem c10_new_graph_total_dangling_skipped (s : Schema) :
    ((NewGraph s).map (fun nd => nd.tableName) = schemaKeys s) ∧
    (∀ (nodes : List Node) (fk : ForeignKeyInfo),
      ¬ (hasNode nodes fk.tableName = true ∧ hasNode nodes fk.foreignTableName = true) →
      addForeignKeyEdge nodes fk = nodes) ∧
    NewGraph s = NewGraph (pruneDanglingForeignKeys s) := by
  refine ⟨newGraph_names s, ?_, ?_⟩
  · intro nodes fk h
    rw [addForeignKeyEdge, if_neg h]
  · rw [NewGraph, NewGraph, schemaForeignKeys_prune]
    have hinit : (pruneDanglingForeignKeys s).map
        (fun p => ({ tableName := p.1, edges := [], inDegree := 0 } : Node)) =
        s.map (fun p => ({ tableName := p.1, edges := [], inDegree := 0 } : Node)) := by
      unfold pruneDanglingForeignKeys
      rw [List.map_map]
      rfl
    rw [hinit]
    exact foldl_addForeignKeyEdge_filter s (schemaForeignKeys s) _ (by rw [List.map_map]; rfl)

/-- Witness for C10 at a concrete schema with a dangling foreign key. -/
theorem c10_new_graph_total_dangling_skipped_witness :
    addForeignKeyEdge [⟨"t", [], 0⟩] ⟨"fk1", "t", "c", "missing", "id"⟩ = [⟨"t", [], 0⟩] :=
  (c10_new_graph_total_dangling_skipped []).2.1
    [⟨"t", [], 0⟩] ⟨"fk1", "t", "c", "missing", "id"⟩ (by decide)

/-- Schema with tables s, b, a where b and a each declare a foreign key to
s, listed in one map iteration order. -/
def c3SchemaA : Schema :=
  [("s", ⟨"s", [], [], [], []⟩),
   ("b", ⟨"b", [], [], [], [⟨"fkb", "b", "x", "s", "id"⟩]⟩),
   ("a", ⟨"a", [], [], [], [⟨"fka", "a", "x", "s", "id"⟩]⟩)]

/-- The same schema map enumerated in another iteration order. -/
def c3SchemaB : Schema :=
  [("s", ⟨"s", [], [], [], []⟩),
   ("a", ⟨"a", [], [], [], [⟨"fka", "a", "x", "s", "id"⟩]⟩),
   ("b", ⟨"b", [], [], [], [⟨"fkb", "b", "x", "s", "id"⟩]⟩)]

/-- Counterexample to C3 as stated: the same acyclic schema map, enumerated
in two different iteration orders while building the graph, makes
TopologicalSort return two different sequences, because nodes that reach
in-degree 0 during the drain are enqueued in edge-list order, which follows
the schema map iteration order of NewGraph; only the initial seed queue is
sorted. -/
theorem c3_counterexample :
    c3SchemaA.Perm c3SchemaB ∧ (schemaKeys c3SchemaA).Nodup ∧
    TopologicalSort (NewGraph c3SchemaA) = .ok ["s", "b", "a"] ∧
    TopologicalSort (NewGraph c3SchemaB) = .ok ["s", "a", "b"] := by
  refine ⟨by decide, by decide, ?_, ?_⟩ <;>
    simp [TopologicalSort, NewGraph, c3SchemaA, c3SchemaB, schemaForeignKeys,
      addForeignKeyEdge, applyFKEdge, hasNode, sortStrings, drainQueue, processEdges, nodeEdges,
      cidDecr, cidLookup, List.insertionSort, List.orderedInsert, cycleErrorMsg]

/-- C3 amended: the seed queue is the lexicographically sorted list of the
zero in-degree nodes, so the enumeration order of the currentInDegrees map
during seed collection never affects the output: for a fixed
DependencyGraph, any two invocations of TopologicalSort return identical
sequences. Across two constructions of the graph from the same schema map
the edge lists may come out in different orders and the drain may enqueue
newly zeroed nodes differently, as the counterexample shows. -/
theorem c3_sorted_seed_determinism (nodes : List Node) (e1 e2 : List (String × Int))
    (hp : e1.Perm e2) :
    topologicalSortWithSeedEnum nodes e1 = topologicalSortWithSeedEnum nodes e2 ∧
    TopologicalSort nodes =
      topologicalSortWithSeedEnum nodes (nodes.map (fun nd => (nd.tableName, nd.inDegree))) ∧
    (∀ l : List String,
      (sortStrings l).Perm l ∧ List.Sorted (fun a b => a ≤ b) (sortStrings l)) := by
  refine ⟨?_, rfl, ?_⟩
  · have hseeds : sortStrings ((e1.filter (fun p => p.2 = 0)).map Prod.fst) =
        sortStrings ((e2.filter (fun p => p.2 = 0)).map Prod.fst) := by
      have hperm : ((e1.filter (fun p => p.2 = 0)).map Prod.fst).Perm
          ((e2.filter (fun p => p.2 = 0)).map Prod.fst) :=
        (hp.filter (fun p => p.2 = 0)).map Prod.fst
      have h1 : List.Sorted (fun a b : String => a ≤ b)
          (sortStrings ((e1.filter (fun p => p.2 = 0)).map Prod.fst)) :=
        List.sorted_insertionSort _ _
      have h2 : List.Sorted (fun a b : String => a ≤ b)
          (sortStrings ((e2.filter (fun p => p.2 = 0)).map Prod.fst)) :=
        List.sorted_insertionSort _ _
      have hp2 : (sortStrings ((e1.filter (fun p => p.2 = 0)).map Prod.fst)).Perm
          (sortStrings ((e2.filter (fun p => p.2 = 0)).map Prod.fst)) :=
        (List.perm_insertionSort _ _).trans (hperm.trans (List.perm_insertionSort _ _).symm)
      exact List.eq_of_perm_of_sorted hp2 h1 h2
    unfold topologicalSortWithSeedEnum
    rw [hseeds]
  · intro l
    exact ⟨List.perm_insertionSort _ _, List.sorted_insertionSort _ _⟩

/-- Witness for the amended C3 at a concrete graph and two enumeration
orders. -/
theorem c3_sorted_seed_determinism_witness :
    topologicalSortWithSeedEnum [⟨"a", [], 0⟩, ⟨"b", [], 0⟩] [("a", 0), ("b", 0)] =
      topologicalSortWithSeedEnum [⟨"a", [], 0⟩, ⟨"b", [], 0⟩] [("b", 0), ("a", 0)] :=
  (c3_sorted_seed_determinism [⟨"a", [], 0⟩, ⟨"b", [], 0⟩]
    [("a", 0), ("b", 0)] [("b", 0), ("a", 0)] (by decide)).1

/-! Correctness development for the topological sort. -/

/-- Names of the graph nodes, in map iteration order. -/
def graphNames (nodes : List Node) : List String := nodes.map (fun nd => nd.tableName)

/-- Total number of edges pointing at v. -/
def indegCount (nodes : List Node) (v : String) : Nat :=
  (nodes.map (fun nd => nd.edges.count v)).sum

/-- Number of edges pointing at v from the processed nodes. -/
def processedDec (nodes : List Node) (done : List String) (v : String) : Nat :=
  (done.map (fun u => (nodeEdges nodes u).count v)).sum

/-- Edge relation of the graph. -/
def graphEdge (nodes : List Node) (u v : String) : Prop :=
  ∃ nd ∈ nodes, nd.tableName = u ∧ v ∈ nd.edges

/-- Acyclicity of the graph: no nonempty edge path returns to its start. -/
def GraphAcyclic (nodes : List Node) : Prop :=
  ∀ v, ¬ Relation.TransGen (graphEdge nodes) v v

theorem cidLookup_cidDecr (c : List (String × Int)) (k v : String) :
    cidLookup (cidDecr c k) v =
      if v = k then cidLookup c v - 1 else cidLookup c v := by
  by_cases hany : c.any (fun p => p.1 = k)
  · rw [cidDecr, if_pos hany]
    set f : String × Int → String × Int := fun p => if p.1 = k then (p.1, p.2 - 1) else p with hf
    have hcomp : ∀ w : String, ((fun p : String × Int => decide (p.1 = w)) ∘ f) =
        (fun p : String × Int => decide (p.1 = w)) := by
      intro w
      funext p
      by_cases hpk : p.1 = k <;> simp [hf, hpk]
    have hfind : ∀ w : String, (c.map f).find? (fun p => decide (p.1 = w)) =
        (c.find? (fun p => decide (p.1 = w))).map f := by
      intro w
      rw [List.find?_map, hcomp]
    rw [cidLookup, cidLookup, hfind v]
    cases hfv : c.find? (fun p => decide (p.1 = v)) with
    | none =>
      have hvk : v ≠ k := by
        intro hvk
        subst hvk
        obtain ⟨x, hx, hpx⟩ := List.any_eq_true.mp hany
        have : (c.find? (fun p => decide (p.1 = v))).isSome :=
          List.find?_isSome.mpr ⟨x, hx, hpx⟩
        rw [hfv] at this
        simp at this
      rw [if_neg hvk]
      rfl
    | some p =>
      have hpv : p.1 = v := by simpa using List.find?_some hfv
      have hfp : Option.map f (some p) = some (f p) := rfl
      rw [hfp]
      by_cases hvk : v = k
      · rw [if_pos hvk]
        show (f p).2 = p.2 - 1
        rw [hf]
        simp [hpv, hvk]
      · rw [if_neg hvk]
        show (f p).2 = p.2
        rw [hf]
        simp [hpv, hvk]
  · rw [cidDecr, if_neg hany]
    have hnone : c.find? (fun p => decide (p.1 = k)) = none := by
      rw [List.find?_eq_none]
      intro x hx hpx
      exact hany (List.any_eq_true.mpr ⟨x, hx, hpx⟩)
    by_cases hvk : v = k
    · subst hvk
      rw [cidLookup, cidLookup, List.find?_append, hnone]
      simp
    · rw [cidLookup, cidLookup, List.find?_append]
      cases hfv : c.find? (fun p => decide (p.1 = v)) with
      | none =>
        simp only [Option.none_or]
        have : List.find? (fun p => decide (p.1 = v)) [(k, -1)] = none := by
          simp [Ne.symm hvk]
        rw [this, if_neg hvk]
      | some p =>
        simp [if_neg hvk]

theorem processEdges_spec (es : List String) : ∀ (c : List (String × Int)) (q : List String),
    (∀ v, cidLookup (processEdges c q es).1 v = cidLookup c v - (es.count v : Int)) ∧
    ∃ Δ, (processEdges c q es).2 = q ++ Δ ∧ Δ.Nodup ∧
      (∀ v, v ∈ Δ ↔ 1 ≤ cidLookup c v ∧ cidLookup c v ≤ (es.count v : Int)) := by
  induction es with
  | nil =>
    intro c q
    refine ⟨fun v => by simp [processEdges], [], by simp [processEdges], List.nodup_nil, ?_⟩
    intro v
    simp only [List.not_mem_nil, List.count_nil, Nat.cast_zero, false_iff]
    omega
  | cons e rest ih =>
    intro c q
    have hstep : processEdges c q (e :: rest) =
        processEdges (cidDecr c e)
          (if cidLookup (cidDecr c e) e = 0 then q ++ [e] else q) rest := by
      rw [processEdges]
    obtain ⟨ihc, Δ', hq', hnd', hmem'⟩ := ih (cidDecr c e)
      (if cidLookup (cidDecr c e) e = 0 then q ++ [e] else q)
    constructor
    · intro v
      rw [hstep, ihc v, cidLookup_cidDecr]
      by_cases hv : v = e
      · subst hv
        rw [if_pos rfl, List.count_cons_self]
        push_cast
        omega
      · rw [if_neg hv, List.count_cons_of_ne hv]
    · by_cases hz : cidLookup (cidDecr c e) e = 0
      · refine ⟨e :: Δ', ?_, ?_, ?_⟩
        · rw [hstep, hq', if_pos hz]
          simp
        · refine List.nodup_cons.mpr ⟨?_, hnd'⟩
          intro hmem
          have := (hmem' e).mp hmem
          omega
        · intro v
          have hle : cidLookup (cidDecr c e) e = cidLookup c e - 1 := by
            rw [cidLookup_cidDecr, if_pos rfl]
          by_cases hv : v = e
          · subst hv
            simp only [List.mem_cons, true_or, true_iff, List.count_cons_self]
            push_cast
            omega
          · simp only [List.mem_cons, hv, false_or]
            rw [hmem' v, cidLookup_cidDecr, if_neg hv,
              List.count_cons_of_ne hv]
      · refine ⟨Δ', ?_, hnd', ?_⟩
        · rw [hstep, hq', if_neg hz]
        · intro v
          have hle : cidLookup (cidDecr c e) e = cidLookup c e - 1 := by
            rw [cidLookup_cidDecr, if_pos rfl]
          by_cases hv : v = e
          · subst hv
            rw [hmem' v, hle, List.count_cons_self]
            push_cast
            omega
          · rw [hmem' v, cidLookup_cidDecr, if_neg hv,
              List.count_cons_of_ne hv]

/-- Consistency of a graph: each node records as in-degree the total number
of edges pointing at it, and every edge targets an existing node. -/
def GoodGraph (nodes : List Node) : Prop :=
  (∀ nd ∈ nodes, nd.inDegree = (indegCount nodes nd.tableName : Int)) ∧
  (∀ nd ∈ nodes, ∀ e ∈ nd.edges, e ∈ graphNames nodes)

theorem applyFKEdge_spec (fk : ForeignKeyInfo) (nd : Node) :
    (applyFKEdge fk nd).tableName = nd.tableName ∧
    (applyFKEdge fk nd).edges = nd.edges ++
      (if nd.tableName = fk.foreignTableName then [fk.tableName] else []) ∧
    (applyFKEdge fk nd).inDegree = nd.inDegree +
      (if nd.tableName = fk.tableName then 1 else 0) := by
  unfold applyFKEdge
  by_cases h1 : nd.tableName = fk.foreignTableName
  · by_cases h2 : nd.tableName = fk.tableName
    · have h3 : fk.foreignTableName = fk.tableName := h1.symm.trans h2
      simp [h1, h2, h3]
    · have h3 : ¬ (fk.foreignTableName = fk.tableName) := fun hc => h2 (h1.trans hc)
      simp [h1, h2, h3]
  · by_cases h2 : nd.tableName = fk.tableName
    · have h3 : ¬ (fk.tableName = fk.foreignTableName) := fun hc => h1 (h2.trans hc)
      simp [h1, h2, h3]
    · simp [h1, h2]

theorem graphNames_map_applyFKEdge (nodes : List Node) (fk : ForeignKeyInfo) :
    graphNames (nodes.map (applyFKEdge fk)) = graphNames nodes := by
  unfold graphNames
  rw [List.map_map]
  refine List.map_congr_left ?_
  intro x _
  exact (applyFKEdge_spec fk x).1

theorem sum_indicator_name (nodes : List Node) (t : String) :
    (nodes.map (fun nd => if nd.tableName = t then (1 : Nat) else 0)).sum =
      (graphNames nodes).count t := by
  induction nodes with
  | nil => rfl
  | cons nd rest ih =>
    simp only [graphNames, List.map_cons, List.sum_cons, List.count_cons] at ih ⊢
    rw [ih]
    by_cases h : nd.tableName = t <;> simp [h] <;> omega

theorem indegCount_map_applyFKEdge (nodes : List Node) (fk : ForeignKeyInfo) (v : String) :
    indegCount (nodes.map (applyFKEdge fk)) v =
      indegCount nodes v +
        (if v = fk.tableName then (graphNames nodes).count fk.foreignTableName else 0) := by
  unfold indegCount
  rw [List.map_map]
  have hpt : ∀ nd ∈ nodes, ((fun nd => nd.edges.count v) ∘ applyFKEdge fk) nd =
      nd.edges.count v +
        (if nd.tableName = fk.foreignTableName ∧ v = fk.tableName then 1 else 0) := by
    intro nd _
    simp only [Function.comp]
    rw [(applyFKEdge_spec fk nd).2.1, List.count_append]
    by_cases h1 : nd.tableName = fk.foreignTableName
    · rw [if_pos h1]
      by_cases h2 : v = fk.tableName
      · simp [h1, h2]
      · rw [List.count_eq_zero.mpr (fun hc => h2 (List.mem_singleton.mp hc))]
        simp [h1, h2]
    · rw [if_neg h1]
      simp [h1]
  rw [List.map_congr_left hpt, List.sum_map_add]
  congr 1
  by_cases h2 : v = fk.tableName
  · have : ∀ nd ∈ nodes,
        (if nd.tableName = fk.foreignTableName ∧ v = fk.tableName then (1 : Nat) else 0) =
        (if nd.tableName = fk.foreignTableName then (1 : Nat) else 0) := by
      intro nd _
      by_cases h1 : nd.tableName = fk.foreignTableName <;> simp [h1, h2]
    rw [List.map_congr_left this, sum_indicator_name, if_pos h2]
  · have : ∀ nd ∈ nodes,
        (if nd.tableName = fk.foreignTableName ∧ v = fk.tableName then (1 : Nat) else 0) =
        (0 : Nat) := by
      intro nd _
      simp [h2]
    rw [List.map_congr_left this, if_neg h2]
    simp

theorem goodGraph_addForeignKeyEdge (nodes : List Node) (fk : ForeignKeyInfo)
    (hnd : (graphNames nodes).Nodup) (hg : GoodGraph nodes) :
    GoodGraph (addForeignKeyEdge nodes fk) := by
  rw [addForeignKeyEdge]
  split_ifs with hval
  · obtain ⟨hin, hcl⟩ := hg
    have hcount1 : (graphNames nodes).count fk.foreignTableName = 1 :=
      List.count_eq_one_of_mem hnd ((hasNode_iff nodes _).mp hval.2)
    constructor
    · intro nd' hmem
      obtain ⟨nd, hnd2, rfl⟩ := List.mem_map.mp hmem
      rw [(applyFKEdge_spec fk nd).2.2, (applyFKEdge_spec fk nd).1,
        indegCount_map_applyFKEdge, hcount1, hin nd hnd2]
      by_cases hc : nd.tableName = fk.tableName <;> simp [hc]
    · intro nd' hmem e he
      obtain ⟨nd, hnd2, rfl⟩ := List.mem_map.mp hmem
      rw [(applyFKEdge_spec fk nd).2.1] at he
      rw [graphNames_map_applyFKEdge]
      rcases List.mem_append.mp he with h | h
      · exact hcl nd hnd2 e h
      · by_cases hc : nd.tableName = fk.foreignTableName
        · rw [if_pos hc] at h
          simp only [List.mem_singleton] at h
          subst h
          exact (hasNode_iff nodes _).mp hval.1
        · rw [if_neg hc] at h
          simp at h
  · exact hg

theorem goodGraph_foldl (fks : List ForeignKeyInfo) :
    ∀ nodes : List Node, (graphNames nodes).Nodup → GoodGraph nodes →
      GoodGraph (fks.foldl addForeignKeyEdge nodes) := by
  induction fks with
  | nil => intro nodes _ hg; exact hg
  | cons fk rest ih =>
    intro nodes hnd hg
    rw [List.foldl_cons]
    refine ih _ ?_ (goodGraph_addForeignKeyEdge nodes fk hnd hg)
    have heq : graphNames (addForeignKeyEdge nodes fk) = graphNames nodes :=
      addForeignKeyEdge_names nodes fk
    rw [heq]
    exact hnd

theorem graphNames_newGraph (s : Schema) : graphNames (NewGraph s) = schemaKeys s :=
  newGraph_names s

theorem indegCount_initNodes (s : Schema) (v : String) :
    indegCount (s.map (fun p =>
      ({ tableName := p.1, edges := [], inDegree := 0 } : Node))) v = 0 := by
  unfold indegCount
  rw [List.map_map]
  induction s with
  | nil => rfl
  | cons q rest ih => simpa using ih

theorem newGraph_good (s : Schema) (h : (schemaKeys s).Nodup) : GoodGraph (NewGraph s) := by
  rw [NewGraph]
  have hinitnames : graphNames (s.map (fun p =>
      ({ tableName := p.1, edges := [], inDegree := 0 } : Node))) = schemaKeys s := by
    unfold graphNames
    rw [List.map_map]
    rfl
  refine goodGraph_foldl _ _ (by rw [hinitnames]; exact h) ?_
  constructor
  · intro nd hmem
    obtain ⟨p, hp, rfl⟩ := List.mem_map.mp hmem
    simp [indegCount_initNodes]
  · intro nd hmem e he
    obtain ⟨p, hp, rfl⟩ := List.mem_map.mp hmem
    simp at he

theorem processedDec_append (nodes : List Node) (done : List String) (t v : String) :
    processedDec nodes (done ++ [t]) v =
      processedDec nodes done v + (nodeEdges nodes t).count v := by
  unfold processedDec
  rw [List.map_append, List.sum_append]
  simp

theorem find?_node_self (nodes : List Node) (hnd : (graphNames nodes).Nodup)
    {nd : Node} (hmem : nd ∈ nodes) :
    nodes.find? (fun x => x.tableName = nd.tableName) = some nd := by
  induction nodes with
  | nil => simp at hmem
  | cons nd' rest ih =>
    rw [graphNames, List.map_cons, List.nodup_cons] at hnd
    rcases List.mem_cons.mp hmem with h | h
    · subst h
      exact List.find?_cons_of_pos _ (by simp)
    · by_cases he : nd'.tableName = nd.tableName
      · exact absurd (he ▸ List.mem_map_of_mem _ h) hnd.1
      · rw [List.find?_cons_of_neg _ (by simpa using he)]
        exact ih hnd.2 h

theorem nodeEdges_mem (nodes : List Node) (hnd : (graphNames nodes).Nodup)
    {nd : Node} (hmem : nd ∈ nodes) :
    nodeEdges nodes nd.tableName = nd.edges := by
  unfold nodeEdges
  rw [find?_node_self nodes hnd hmem]

theorem indegCount_eq_processedDec_names (nodes : List Node)
    (hnd : (graphNames nodes).Nodup) (v : String) :
    indegCount nodes v = processedDec nodes (graphNames nodes) v := by
  unfold indegCount processedDec graphNames
  rw [List.map_map]
  refine congrArg List.sum (List.map_congr_left ?_)
  intro nd hmem
  simp only [Function.comp]
  rw [nodeEdges_mem nodes hnd hmem]

theorem processedDec_le (nodes : List Node) (hnd : (graphNames nodes).Nodup)
    (done : List String) (hd : done.Nodup)
    (hsub : ∀ x ∈ done, x ∈ graphNames nodes) (v : String) :
    processedDec nodes done v ≤ indegCount nodes v := by
  rw [indegCount_eq_processedDec_names nodes hnd v]
  unfold processedDec
  obtain ⟨l, hlp, hls⟩ := List.Nodup.subperm hd hsub
  calc (done.map (fun u => (nodeEdges nodes u).count v)).sum
      = (l.map (fun u => (nodeEdges nodes u).count v)).sum :=
        ((hlp.map (fun u => (nodeEdges nodes u).count v)).sum_eq).symm
    _ ≤ ((graphNames nodes).map (fun u => (nodeEdges nodes u).count v)).sum :=
        (hls.map (fun u => (nodeEdges nodes u).count v)).sum_le_sum
          (fun a _ => Nat.zero_le a)

theorem mem_done_of_processedDec_eq (nodes : List Node)
    (hnd : (graphNames nodes).Nodup) (done : List String) (hd : done.Nodup)
    (hsub : ∀ x ∈ done, x ∈ graphNames nodes) (v : String)
    (heq : processedDec nodes done v = indegCount nodes v)
    (u : String) (hu : u ∈ graphNames nodes)
    (hpos : 0 < (nodeEdges nodes u).count v) : u ∈ done := by
  rw [indegCount_eq_processedDec_names nodes hnd v] at heq
  unfold processedDec at heq
  obtain ⟨l, hlp, hls⟩ := List.Nodup.subperm hd hsub
  obtain ⟨r, hr⟩ := hls.exists_perm_append
  have hsum : ((graphNames nodes).map (fun u => (nodeEdges nodes u).count v)).sum =
      (l.map (fun u => (nodeEdges nodes u).count v)).sum +
      (r.map (fun u => (nodeEdges nodes u).count v)).sum := by
    rw [(hr.map (fun u => (nodeEdges nodes u).count v)).sum_eq,
      List.map_append, List.sum_append]
  have hld : (l.map (fun u => (nodeEdges nodes u).count v)).sum =
      (done.map (fun u => (nodeEdges nodes u).count v)).sum :=
    (hlp.map (fun u => (nodeEdges nodes u).count v)).sum_eq
  have hrzero : (r.map (fun u => (nodeEdges nodes u).count v)).sum = 0 := by omega
  have hall : ∀ x ∈ r, (nodeEdges nodes x).count v = 0 := by
    intro x hx
    exact List.sum_eq_zero_iff.mp hrzero _
      (List.mem_map_of_mem (fun u => (nodeEdges nodes u).count v) hx)
  have humem : u ∈ l ++ r := (hr.mem_iff).mp hu
  rcases List.mem_append.mp humem with h | h
  · exact (hlp.mem_iff).mp h
  · exact absurd (hall u h) (by omega)

theorem exists_undone_pred (nodes : List Node)
    (hnd : (graphNames nodes).Nodup) (done : List String) (hd : done.Nodup)
    (hsub : ∀ x ∈ done, x ∈ graphNames nodes) (v : String)
    (hlt : processedDec nodes done v < indegCount nodes v) :
    ∃ u, u ∈ graphNames nodes ∧ u ∉ done ∧ 0 < (nodeEdges nodes u).count v := by
  rw [indegCount_eq_processedDec_names nodes hnd v] at hlt
  unfold processedDec at hlt
  obtain ⟨l, hlp, hls⟩ := List.Nodup.subperm hd hsub
  obtain ⟨r, hr⟩ := hls.exists_perm_append
  have hsum : ((graphNames nodes).map (fun u => (nodeEdges nodes u).count v)).sum =
      (l.map (fun u => (nodeEdges nodes u).count v)).sum +
      (r.map (fun u => (nodeEdges nodes u).count v)).sum := by
    rw [(hr.map (fun u => (nodeEdges nodes u).count v)).sum_eq,
      List.map_append, List.sum_append]
  have hld : (l.map (fun u => (nodeEdges nodes u).count v)).sum =
      (done.map (fun u => (nodeEdges nodes u).count v)).sum :=
    (hlp.map (fun u => (nodeEdges nodes u).count v)).sum_eq
  have hrpos : 0 < (r.map (fun u => (nodeEdges nodes u).count v)).sum := by omega
  have hex : ∃ x ∈ r, 0 < (nodeEdges nodes x).count v := by
    by_contra hno
    push_neg at hno
    have : (r.map (fun u => (nodeEdges nodes u).count v)).sum = 0 :=
      List.sum_eq_zero_iff.mpr (by
        intro y hy
        obtain ⟨x, hx, rfl⟩ := List.mem_map.mp hy
        exact Nat.le_antisymm (hno x hx) (Nat.zero_le _))
    omega
  obtain ⟨u, hur, hupos⟩ := hex
  refine ⟨u, (hr.mem_iff).mpr (List.mem_append_right l hur), ?_, hupos⟩
  intro hudone
  have hnodup2 : (l ++ r).Nodup := (hr.nodup_iff).mp hnd
  have hul : u ∈ l := (hlp.mem_iff).mpr hudone
  exact (List.disjoint_of_nodup_append hnodup2) hul hur

/-- Invariant of the drain loop of TopologicalSort: the counter map keys
are the node names, each counter holds the in-degree minus the
contributions of the processed nodes, the processed and queued nodes are
distinct node names, a name is processed or queued exactly when its counter
reached 0, and each processed node had all its in-edges processed before
it. -/
structure SortInv (nodes : List Node) (queue : List String)
    (counters : List (String × Int)) (done : List String) : Prop where
  keys : counters.map Prod.fst = graphNames nodes
  lookup : ∀ v, cidLookup counters v =
    (indegCount nodes v : Int) - (processedDec nodes done v : Int)
  nodup : (done ++ queue).Nodup
  sub : ∀ v ∈ done ++ queue, v ∈ graphNames nodes
  zero_iff : ∀ v ∈ graphNames nodes, (v ∈ done ++ queue ↔ cidLookup counters v = 0)
  prefix_ok : ∀ d1 v d2, done = d1 ++ v :: d2 →
    indegCount nodes v = processedDec nodes d1 v

theorem cidDecr_keys (c : List (String × Int)) (k : String)
    (hk : k ∈ c.map Prod.fst) : (cidDecr c k).map Prod.fst = c.map Prod.fst := by
  have hany : c.any (fun p => p.1 = k) = true := by
    obtain ⟨p, hp, he⟩ := List.mem_map.mp hk
    exact List.any_eq_true.mpr ⟨p, hp, by simp [he]⟩
  rw [cidDecr, if_pos hany, List.map_map]
  refine List.map_congr_left ?_
  intro p _
  simp only [Function.comp]
  split_ifs <;> rfl

theorem processEdges_keys (es : List String) : ∀ (c : List (String × Int)) (q : List String),
    (∀ e ∈ es, e ∈ c.map Prod.fst) →
    (processEdges c q es).1.map Prod.fst = c.map Prod.fst := by
  induction es with
  | nil => intro c q _; rfl
  | cons e rest ih =>
    intro c q hes
    have hstep : processEdges c q (e :: rest) =
        processEdges (cidDecr c e)
          (if cidLookup (cidDecr c e) e = 0 then q ++ [e] else q) rest := by
      rw [processEdges]
    rw [hstep]
    have hkeys : (cidDecr c e).map Prod.fst = c.map Prod.fst :=
      cidDecr_keys c e (hes e (List.mem_cons_self e rest))
    rw [ih (cidDecr c e) _ (by rw [hkeys]; exact fun x hx => hes x (List.mem_cons_of_mem e hx)),
      hkeys]

theorem nodeEdges_sub_names (nodes : List Node) (hgood : GoodGraph nodes) (t : String) :
    ∀ e ∈ nodeEdges nodes t, e ∈ graphNames nodes := by
  intro e he
  rw [nodeEdges] at he
  cases hfind : nodes.find? (fun x => x.tableName = t) with
  | none => rw [hfind] at he; simp at he
  | some nd =>
    rw [hfind] at he
    exact hgood.2 nd (List.mem_of_find?_eq_some hfind) e he

theorem sortInv_step (nodes : List Node) (hnd : (graphNames nodes).Nodup)
    (hgood : GoodGraph nodes)
    (t : String) (rest done : List String) (counters : List (String × Int))
    (hinv : SortInv nodes (t :: rest) counters done) :
    SortInv nodes (processEdges counters rest (nodeEdges nodes t)).2
      (processEdges counters rest (nodeEdges nodes t)).1 (done ++ [t]) := by
  obtain ⟨hkeys, hlookup, hnodup, hsub, hzero, hprefix⟩ := hinv
  obtain ⟨hc', Δ, hq', hΔnd, hΔmem⟩ := processEdges_spec (nodeEdges nodes t) counters rest
  have ht_mem_dq : t ∈ done ++ t :: rest := by simp
  have ht_names : t ∈ graphNames nodes := hsub t ht_mem_dq
  have ht_zero : cidLookup counters t = 0 := (hzero t ht_names).mp ht_mem_dq
  have hes_names : ∀ e ∈ nodeEdges nodes t, e ∈ graphNames nodes :=
    nodeEdges_sub_names nodes hgood t
  have hdone_nodup : done.Nodup := (List.nodup_append.mp hnodup).1
  have hdone_sub : ∀ x ∈ done, x ∈ graphNames nodes :=
    fun x hx => hsub x (List.mem_append_left _ hx)
  have ht_not_done : t ∉ done := by
    intro hc
    have := List.nodup_append.mp hnodup
    exact this.2.2 hc (List.mem_cons_self t rest)
  have hdonet_nodup : (done ++ [t]).Nodup := by
    rw [List.nodup_append]
    exact ⟨hdone_nodup, List.nodup_singleton t,
      fun x hx hxt => ht_not_done ((List.mem_singleton.mp hxt) ▸ hx)⟩
  have hdonet_sub : ∀ x ∈ done ++ [t], x ∈ graphNames nodes := by
    intro x hx
    rcases List.mem_append.mp hx with h | h
    · exact hdone_sub x h
    · exact (List.mem_singleton.mp h) ▸ ht_names
  have hproc_le : ∀ v, processedDec nodes (done ++ [t]) v ≤ indegCount nodes v :=
    fun v => processedDec_le nodes hnd (done ++ [t]) hdonet_nodup hdonet_sub v
  have hproc_le_done : ∀ v, processedDec nodes done v ≤ indegCount nodes v :=
    fun v => processedDec_le nodes hnd done hdone_nodup hdone_sub v
  -- counters never go negative
  have hnneg : ∀ v, 0 ≤ cidLookup counters v := by
    intro v
    rw [hlookup v]
    have := hproc_le_done v
    omega
  -- nodes already processed or queued receive no edge from t
  have hcount_zero : ∀ v, cidLookup counters v = 0 → (nodeEdges nodes t).count v = 0 := by
    intro v hv
    rw [hlookup v] at hv
    have h1 := hproc_le v
    rw [processedDec_append] at h1
    omega
  -- the new lookup values
  have hlookup' : ∀ v, cidLookup (processEdges counters rest (nodeEdges nodes t)).1 v =
      (indegCount nodes v : Int) - (processedDec nodes (done ++ [t]) v : Int) := by
    intro v
    rw [hc' v, hlookup v, processedDec_append]
    push_cast
    ring
  have hnneg' : ∀ v, 0 ≤ cidLookup (processEdges counters rest (nodeEdges nodes t)).1 v := by
    intro v
    rw [hlookup' v]
    have := hproc_le v
    omega
  -- members of the enqueued block
  have hΔ_names : ∀ v ∈ Δ, v ∈ graphNames nodes := by
    intro v hv
    obtain ⟨h1, h2⟩ := (hΔmem v).mp hv
    have hcnt : 0 < (nodeEdges nodes t).count v := by
      by_contra hc
      push_neg at hc
      have h0 : (nodeEdges nodes t).count v = 0 := by omega
      rw [h0] at h2
      push_cast at h2
      omega
    exact hes_names v (List.count_pos_iff_mem.mp hcnt)
  have hΔ_not_old : ∀ v ∈ Δ, v ∉ done ++ t :: rest := by
    intro v hv hvc
    obtain ⟨h1, _⟩ := (hΔmem v).mp hv
    have := (hzero v (hΔ_names v hv)).mp hvc
    omega
  refine ⟨?_, hlookup', ?_, ?_, ?_, ?_⟩
  · rw [processEdges_keys (nodeEdges nodes t) counters rest
      (by rw [hkeys]; exact hes_names), hkeys]
  · rw [hq']
    have : (done ++ [t]) ++ (rest ++ Δ) = (done ++ t :: rest) ++ Δ := by simp
    rw [this, List.nodup_append]
    exact ⟨hnodup, hΔnd, fun x hx hxΔ => hΔ_not_old x hxΔ hx⟩
  · intro v hv
    rw [hq'] at hv
    have : (done ++ [t]) ++ (rest ++ Δ) = (done ++ t :: rest) ++ Δ := by simp
    rw [this] at hv
    rcases List.mem_append.mp hv with h | h
    · exact hsub v h
    · exact hΔ_names v h
  · intro v hvnames
    rw [hq']
    have heq : (done ++ [t]) ++ (rest ++ Δ) = (done ++ t :: rest) ++ Δ := by simp
    rw [heq]
    constructor
    · intro hv
      rcases List.mem_append.mp hv with h | h
      · have h0 := (hzero v hvnames).mp h
        rw [hc' v, h0, hcount_zero v h0]
        simp
      · obtain ⟨h1, h2⟩ := (hΔmem v).mp h
        have := hnneg' v
        rw [hc' v] at this ⊢
        omega
    · intro hv
      rw [hc' v] at hv
      by_cases h0 : cidLookup counters v = 0
      · exact List.mem_append_left _ ((hzero v hvnames).mpr h0)
      · have := hnneg v
        refine List.mem_append_right _ ((hΔmem v).mpr ?_)
        omega
  · intro d1 v d2 hsplit
    rcases List.eq_nil_or_concat d2 with rfl | ⟨d2', x, rfl⟩
    · have hlen : done = d1 ∧ [t] = [v] := by
        refine List.append_inj hsplit ?_
        have := congrArg List.length hsplit
        simp at this
        omega
      obtain ⟨rfl, hv⟩ := hlen
      simp only [List.cons.injEq] at hv
      have h0 := ht_zero
      rw [hlookup t] at h0
      have := hproc_le_done t
      rw [← hv.1]
      omega
    · have hsplit2 : done ++ [t] = (d1 ++ v :: d2') ++ [x] := by
        rw [hsplit]; simp
      have hlen : done = d1 ++ v :: d2' ∧ [t] = [x] := by
        refine List.append_inj hsplit2 ?_
        have := congrArg List.length hsplit2
        simp at this ⊢
        omega
      exact hprefix d1 v d2' hlen.1

theorem find?_pair_self (m : List (String × Int)) (hnd : (m.map Prod.fst).Nodup)
    {p : String × Int} (hp : p ∈ m) :
    m.find? (fun q => q.1 = p.1) = some p := by
  induction m with
  | nil => simp at hp
  | cons p' rest ih =>
    rw [List.map_cons, List.nodup_cons] at hnd
    rcases List.mem_cons.mp hp with h | h
    · subst h
      exact List.find?_cons_of_pos _ (by simp)
    · by_cases he : p'.1 = p.1
      · exact absurd (he ▸ List.mem_map_of_mem Prod.fst h) hnd.1
      · rw [List.find?_cons_of_neg _ (by simpa using he)]
        exact ih hnd.2 h

theorem cidLookup_initial (nodes : List Node) (hnd : (graphNames nodes).Nodup)
    (hgood : GoodGraph nodes) (v : String) :
    cidLookup (nodes.map (fun nd => (nd.tableName, nd.inDegree))) v =
      (indegCount nodes v : Int) := by
  have hcomp : ((fun p : String × Int => decide (p.1 = v)) ∘
      (fun nd : Node => (nd.tableName, nd.inDegree))) =
      (fun nd : Node => decide (nd.tableName = v)) := by
    funext nd
    rfl
  rw [cidLookup, List.find?_map, hcomp]
  cases hfind : nodes.find? (fun nd => nd.tableName = v) with
  | some nd =>
    have hmem := List.mem_of_find?_eq_some hfind
    have hname : nd.tableName = v := by simpa using List.find?_some hfind
    show (nd.tableName, nd.inDegree).2 = (indegCount nodes v : Int)
    rw [hgood.1 nd hmem, hname]
  | none =>
    have hv : v ∉ graphNames nodes := by
      intro hv
      obtain ⟨nd, hnd2, he⟩ := List.mem_map.mp hv
      have : (nodes.find? (fun nd => decide (nd.tableName = v))).isSome :=
        List.find?_isSome.mpr ⟨nd, hnd2, by simp [he]⟩
      rw [hfind] at this
      simp at this
    have hz : indegCount nodes v = 0 := by
      unfold indegCount
      refine List.sum_eq_zero_iff.mpr ?_
      intro x hx
      obtain ⟨nd, hnd2, rfl⟩ := List.mem_map.mp hx
      refine List.count_eq_zero.mpr ?_
      intro hc
      exact hv (hgood.2 nd hnd2 v hc)
    rw [hz]
    rfl

theorem sortInv_init (nodes : List Node) (hnd : (graphNames nodes).Nodup)
    (hgood : GoodGraph nodes) :
    SortInv nodes
      (sortStrings (((nodes.map (fun nd => (nd.tableName, nd.inDegree))).filter
        (fun p => p.2 = 0)).map Prod.fst))
      (nodes.map (fun nd => (nd.tableName, nd.inDegree))) [] := by
  have hkeys0 : (nodes.map (fun nd => (nd.tableName, nd.inDegree))).map Prod.fst =
      graphNames nodes := by
    rw [List.map_map]
    rfl
  have hl0nodup : (((nodes.map (fun nd => (nd.tableName, nd.inDegree))).filter
      (fun p => p.2 = 0)).map Prod.fst).Nodup := by
    have hsl : ((nodes.map (fun nd => (nd.tableName, nd.inDegree))).filter
        (fun p => p.2 = 0)).Sublist (nodes.map (fun nd => (nd.tableName, nd.inDegree))) :=
      List.filter_sublist _
    have := (hsl.map Prod.fst).nodup (by rw [hkeys0]; exact hnd)
    exact this
  have hperm : (sortStrings (((nodes.map (fun nd => (nd.tableName, nd.inDegree))).filter
      (fun p => p.2 = 0)).map Prod.fst)).Perm
      (((nodes.map (fun nd => (nd.tableName, nd.inDegree))).filter
        (fun p => p.2 = 0)).map Prod.fst) :=
    List.perm_insertionSort _ _
  have hmem_seed : ∀ v, v ∈ sortStrings (((nodes.map (fun nd => (nd.tableName, nd.inDegree))).filter
      (fun p => p.2 = 0)).map Prod.fst) ↔
      ∃ p ∈ nodes.map (fun nd => (nd.tableName, nd.inDegree)), p.2 = 0 ∧ p.1 = v := by
    intro v
    rw [hperm.mem_iff]
    constructor
    · intro hv
      obtain ⟨p, hp, he⟩ := List.mem_map.mp hv
      have := List.mem_filter.mp hp
      exact ⟨p, this.1, by simpa using this.2, he⟩
    · rintro ⟨p, hp, h2, h1⟩
      refine List.mem_map.mpr ⟨p, List.mem_filter.mpr ⟨hp, by simpa using h2⟩, h1⟩
  refine ⟨hkeys0, ?_, ?_, ?_, ?_, ?_⟩
  · intro v
    rw [cidLookup_initial nodes hnd hgood v]
    simp [processedDec]
  · simpa using hperm.nodup_iff.mpr hl0nodup
  · intro v hv
    simp only [List.nil_append] at hv
    obtain ⟨p, hp, h2, h1⟩ := (hmem_seed v).mp hv
    rw [← h1, ← hkeys0]
    exact List.mem_map_of_mem Prod.fst hp
  · intro v hvnames
    simp only [List.nil_append]
    rw [hmem_seed v]
    constructor
    · rintro ⟨p, hp, h2, h1⟩
      have hfind := find?_pair_self (nodes.map (fun nd => (nd.tableName, nd.inDegree)))
        (by rw [hkeys0]; exact hnd) hp
      have hfind2 : (nodes.map (fun nd => (nd.tableName, nd.inDegree))).find?
          (fun q => q.1 = v) = some p := by rw [← h1]; exact hfind
      rw [cidLookup, hfind2]
      exact h2
    · intro h0
      rw [cidLookup] at h0
      cases hfind : (nodes.map (fun nd => (nd.tableName, nd.inDegree))).find?
          (fun q => q.1 = v) with
      | none =>
        exfalso
        obtain ⟨p, hp, he⟩ := List.mem_map.mp (by rw [← hkeys0] at hvnames; exact hvnames)
        have : ((nodes.map (fun nd => (nd.tableName, nd.inDegree))).find?
            (fun q => decide (q.1 = v))).isSome :=
          List.find?_isSome.mpr ⟨p, hp, by simp [he]⟩
        rw [hfind] at this
        simp at this
      | some p =>
        rw [hfind] at h0
        refine ⟨p, List.mem_of_find?_eq_some hfind, h0, by simpa using List.find?_some hfind⟩
  · intro d1 v d2 h
    simp at h

theorem drainQueue_nil (nodes : List Node) (counters : List (String × Int))
    (order : List String) : drainQueue nodes [] counters order = order := by
  simp [drainQueue]

theorem drainQueue_cons (nodes : List Node) (t : String) (rest : List String)
    (counters : List (String × Int)) (order : List String) :
    drainQueue nodes (t :: rest) counters order =
      drainQueue nodes (processEdges counters rest (nodeEdges nodes t)).2
        (processEdges counters rest (nodeEdges nodes t)).1 (order ++ [t]) := by
  rw [drainQueue]

theorem drain_post_nil (nodes : List Node) (hnd : (graphNames nodes).Nodup)
    (counters : List (String × Int)) (done : List String)
    (hinv : SortInv nodes [] counters done) :
    done.Nodup ∧ (∀ v ∈ done, v ∈ graphNames nodes) ∧
    (∀ d1 v d2, done = d1 ++ v :: d2 → indegCount nodes v = processedDec nodes d1 v) ∧
    (∀ v ∈ graphNames nodes, v ∉ done →
      processedDec nodes done v < indegCount nodes v) := by
  obtain ⟨hkeys, hlookup, hnodup, hsub, hzero, hprefix⟩ := hinv
  simp only [List.append_nil] at hnodup hsub hzero
  refine ⟨hnodup, hsub, hprefix, ?_⟩
  intro v hvnames hvdone
  have hne : cidLookup counters v ≠ 0 := fun h0 => hvdone ((hzero v hvnames).mpr h0)
  rw [hlookup v] at hne
  have hle := processedDec_le nodes hnd done hnodup hsub v
  omega

theorem drain_post (nodes : List Node) (hnd : (graphNames nodes).Nodup)
    (hgood : GoodGraph nodes) :
    ∀ (N : Nat) (queue : List String) (counters : List (String × Int)) (done : List String),
      queue.length + 2 * posCount counters ≤ N →
      SortInv nodes queue counters done →
      (∃ suffix, drainQueue nodes queue counters done = done ++ suffix) ∧
      (drainQueue nodes queue counters done).Nodup ∧
      (∀ v ∈ drainQueue nodes queue counters done, v ∈ graphNames nodes) ∧
      (∀ d1 v d2, drainQueue nodes queue counters done = d1 ++ v :: d2 →
        indegCount nodes v = processedDec nodes d1 v) ∧
      (∀ v ∈ graphNames nodes, v ∉ drainQueue nodes queue counters done →
        processedDec nodes (drainQueue nodes queue counters done) v < indegCount nodes v) := by
  intro N
  induction N with
  | zero =>
    intro queue counters done hle hinv
    have hq : queue = [] := by
      cases queue with
      | nil => rfl
      | cons a b => simp at hle
    subst hq
    rw [drainQueue_nil]
    obtain ⟨h1, h2, h3, h4⟩ := drain_post_nil nodes hnd counters done hinv
    exact ⟨⟨[], by simp⟩, h1, h2, h3, h4⟩
  | succ N ih =>
    intro queue counters done hle hinv
    cases queue with
    | nil =>
      rw [drainQueue_nil]
      obtain ⟨h1, h2, h3, h4⟩ := drain_post_nil nodes hnd counters done hinv
      exact ⟨⟨[], by simp⟩, h1, h2, h3, h4⟩
    | cons t rest =>
      rw [drainQueue_cons]
      have hstep := sortInv_step nodes hnd hgood t rest done counters hinv
      have hmeas : (processEdges counters rest (nodeEdges nodes t)).2.length +
          2 * posCount (processEdges counters rest (nodeEdges nodes t)).1 ≤ N := by
        have := processEdges_measure (nodeEdges nodes t) counters rest
        simp only [List.length_cons] at hle
        omega
      obtain ⟨⟨suffix, hsuf⟩, hnodup2, hsub2, hpre2, hlast2⟩ := ih _ _ _ hmeas hstep
      refine ⟨⟨t :: suffix, by rw [hsuf]; simp⟩, hnodup2, hsub2, hpre2, hlast2⟩

theorem indexOf_split (d1 : List String) (x : String) (d2 : List String) (hx : x ∉ d1) :
    (d1 ++ x :: d2).indexOf x = d1.length := by
  induction d1 with
  | nil => simp [List.indexOf_cons_self]
  | cons a d1' ih =>
    have hax : a ≠ x := fun h => hx (h ▸ List.mem_cons_self a d1')
    simp only [List.cons_append, List.length_cons]
    rw [List.indexOf_cons_ne _ hax, ih (fun h => hx (List.mem_cons_of_mem a h))]

theorem order_edge_lt (nodes : List Node) (hnd : (graphNames nodes).Nodup)
    (order : List String)
    (hnodup : order.Nodup) (hsub : ∀ w ∈ order, w ∈ graphNames nodes)
    (hpre : ∀ d1 w d2, order = d1 ++ w :: d2 → indegCount nodes w = processedDec nodes d1 w)
    (hfull : ∀ w ∈ graphNames nodes, w ∈ order)
    (u v : String) (hu : u ∈ graphNames nodes) (hv : v ∈ graphNames nodes)
    (hcnt : 0 < (nodeEdges nodes u).count v) :
    order.indexOf u < order.indexOf v := by
  obtain ⟨d1, d2, hsplit⟩ := List.append_of_mem (hfull v hv)
  have hvd1 : v ∉ d1 := by
    intro hc
    rw [hsplit] at hnodup
    exact (List.nodup_append.mp hnodup).2.2 hc (List.mem_cons_self v d2)
  have hd1nodup : d1.Nodup := by
    rw [hsplit] at hnodup
    exact (List.nodup_append.mp hnodup).1
  have hd1sub : ∀ x ∈ d1, x ∈ graphNames nodes := by
    intro x hx
    exact hsub x (hsplit ▸ List.mem_append_left _ hx)
  have heq : processedDec nodes d1 v = indegCount nodes v := (hpre d1 v d2 hsplit).symm
  have hud1 : u ∈ d1 :=
    mem_done_of_processedDec_eq nodes hnd d1 hd1nodup hd1sub v heq u hu hcnt
  rw [hsplit, indexOf_split d1 v d2 hvd1, List.indexOf_append_of_mem hud1]
  exact List.indexOf_lt_length.mpr hud1

theorem nodeEdges_map_applyFKEdge (nodes : List Node) (fk : ForeignKeyInfo) (u : String) :
    nodeEdges (nodes.map (applyFKEdge fk)) u =
      (nodeEdges nodes u) ++
        (if (nodes.find? (fun x => x.tableName = u)).isSome ∧ u = fk.foreignTableName
          then [fk.tableName] else []) := by
  unfold nodeEdges
  have hcomp : ((fun x : Node => decide (x.tableName = u)) ∘ applyFKEdge fk) =
      (fun x : Node => decide (x.tableName = u)) := by
    funext x
    simp [(applyFKEdge_spec fk x).1]
  rw [List.find?_map, hcomp]
  cases hfind : nodes.find? (fun x => x.tableName = u) with
  | none => simp
  | some nd =>
    have hname : nd.tableName = u := by simpa using List.find?_some hfind
    simp only [Option.isSome_some, true_and]
    show (applyFKEdge fk nd).edges =
      nd.edges ++ (if u = fk.foreignTableName then [fk.tableName] else [])
    rw [(applyFKEdge_spec fk nd).2.1, hname]

theorem edge_mono_addForeignKeyEdge (nodes : List Node) (fk : ForeignKeyInfo)
    (u e : String) (he : e ∈ nodeEdges nodes u) :
    e ∈ nodeEdges (addForeignKeyEdge nodes fk) u := by
  rw [addForeignKeyEdge]
  split_ifs with hval
  · rw [nodeEdges_map_applyFKEdge]
    exact List.mem_append_left _ he
  · exact he

theorem edge_mono_foldl (fks : List ForeignKeyInfo) :
    ∀ (nodes : List Node) (u e : String), e ∈ nodeEdges nodes u →
      e ∈ nodeEdges (fks.foldl addForeignKeyEdge nodes) u := by
  induction fks with
  | nil => intro nodes u e he; exact he
  | cons fk rest ih =>
    intro nodes u e he
    rw [List.foldl_cons]
    exact ih _ u e (edge_mono_addForeignKeyEdge nodes fk u e he)

theorem newGraph_edge_of_fk (s : Schema) (fk : ForeignKeyInfo)
    (hmem : fk ∈ schemaForeignKeys s)
    (h1 : fk.tableName ∈ schemaKeys s) (h2 : fk.foreignTableName ∈ schemaKeys s) :
    fk.tableName ∈ nodeEdges (NewGraph s) fk.foreignTableName := by
  obtain ⟨l1, l2, hsplit⟩ := List.append_of_mem hmem
  rw [NewGraph, hsplit, List.foldl_append, List.foldl_cons]
  set nodes1 := l1.foldl addForeignKeyEdge
    (s.map (fun p => { tableName := p.1, edges := [], inDegree := 0 })) with hn1
  have hnames1 : nodes1.map (fun nd => nd.tableName) = schemaKeys s := by
    rw [hn1, foldl_addForeignKeyEdge_names, List.map_map]
    rfl
  have hval : hasNode nodes1 fk.tableName = true ∧
      hasNode nodes1 fk.foreignTableName = true := by
    constructor
    · exact (hasNode_iff nodes1 _).mpr (hnames1 ▸ h1)
    · exact (hasNode_iff nodes1 _).mpr (hnames1 ▸ h2)
  refine edge_mono_foldl l2 _ _ _ ?_
  rw [addForeignKeyEdge, if_pos hval, nodeEdges_map_applyFKEdge]
  have hsome : (nodes1.find? (fun x => x.tableName = fk.foreignTableName)).isSome := by
    rw [List.find?_isSome]
    obtain ⟨nd, hnd2, he⟩ := List.mem_map.mp (hnames1 ▸ h2)
    exact ⟨nd, hnd2, by simp [he]⟩
  rw [if_pos ⟨hsome, rfl⟩]
  simp

theorem exists_cycle_of_preds (R : List String) (hne : R ≠ [])
    (E : String → String → Prop)
    (hpred : ∀ v ∈ R, ∃ u, u ∈ R ∧ E u v) :
    ∃ w, Relation.TransGen E w w := by
  obtain ⟨v₀, hv₀⟩ := List.exists_mem_of_ne_nil R hne
  have hch : ∀ v : {x // x ∈ R}, ∃ u : {x // x ∈ R}, E u.val v.val := by
    rintro ⟨v, hv⟩
    obtain ⟨u, hu, he⟩ := hpred v hv
    exact ⟨⟨u, hu⟩, he⟩
  choose f hf using hch
  have hstep : ∀ n : Nat, E (f^[n + 1] ⟨v₀, hv₀⟩).val (f^[n] ⟨v₀, hv₀⟩).val := by
    intro n
    rw [Function.iterate_succ_apply' f n _]
    exact hf _
  have hchain : ∀ j i : Nat, i < j →
      Relation.TransGen E (f^[j] ⟨v₀, hv₀⟩).val (f^[i] ⟨v₀, hv₀⟩).val := by
    intro j
    induction j with
    | zero => intro i hij; omega
    | succ j ihj =>
      intro i hij
      by_cases hji : i = j
      · subst hji
        exact Relation.TransGen.single (hstep i)
      · exact Relation.TransGen.head (hstep j) (ihj i (by omega))
  have hmemR : ∀ n : Nat, (f^[n] ⟨v₀, hv₀⟩).val ∈ R := fun n => (f^[n] ⟨v₀, hv₀⟩).2
  have hcard := Fintype.exists_ne_map_eq_of_card_lt
    (fun i : Fin (R.length + 1) =>
      (⟨R.indexOf (f^[i.val] ⟨v₀, hv₀⟩).val,
        List.indexOf_lt_length.mpr (hmemR i.val)⟩ : Fin R.length))
    (by simp)
  obtain ⟨i, j, hij, heq⟩ := hcard
  have hval : (f^[i.val] ⟨v₀, hv₀⟩).val = (f^[j.val] ⟨v₀, hv₀⟩).val := by
    have h2 := congrArg Fin.val heq
    simp only at h2
    exact (List.indexOf_inj (hmemR i.val) (hmemR j.val)).mp h2
  rcases Nat.lt_or_ge i.val j.val with h | h
  · refine ⟨(f^[j.val] ⟨v₀, hv₀⟩).val, ?_⟩
    have := hchain j.val i.val h
    rw [hval] at this
    exact this
  · have h2 : j.val < i.val := by
      rcases Nat.lt_or_ge j.val i.val with h2 | h2
      · exact h2
      · exact absurd (Fin.ext (by omega)) hij
    refine ⟨(f^[i.val] ⟨v₀, hv₀⟩).val, ?_⟩
    have := hchain i.val j.val h2
    rw [← hval] at this
    exact this

/-- The copied in-degree map of TopologicalSort. -/
def initialCounters (nodes : List Node) : List (String × Int) :=
  nodes.map (fun nd => (nd.tableName, nd.inDegree))

/-- The sorted seed queue of TopologicalSort. -/
def initialSeeds (nodes : List Node) : List String :=
  sortStrings (((initialCounters nodes).filter (fun p => p.2 = 0)).map Prod.fst)

/-- The order the drain loop of TopologicalSort produces. -/
def drainedOrder (nodes : List Node) : List String :=
  drainQueue nodes (initialSeeds nodes) (initialCounters nodes) []

theorem topologicalSort_eq_drained (nodes : List Node) :
    TopologicalSort nodes =
      (if (drainedOrder nodes).length ≠ nodes.length then .error cycleErrorMsg
        else .ok (drainedOrder nodes)) := rfl

theorem graphNames_length (nodes : List Node) :
    (graphNames nodes).length = nodes.length := by
  simp [graphNames]

theorem drained_spec (nodes : List Node) (hnd : (graphNames nodes).Nodup)
    (hgood : GoodGraph nodes) :
    (drainedOrder nodes).Nodup ∧
    (∀ v ∈ drainedOrder nodes, v ∈ graphNames nodes) ∧
    (∀ d1 v d2, drainedOrder nodes = d1 ++ v :: d2 →
      indegCount nodes v = processedDec nodes d1 v) ∧
    (∀ v ∈ graphNames nodes, v ∉ drainedOrder nodes →
      processedDec nodes (drainedOrder nodes) v < indegCount nodes v) := by
  have hinit := sortInv_init nodes hnd hgood
  obtain ⟨-, h2, h3, h4, h5⟩ := drain_post nodes hnd hgood
    ((initialSeeds nodes).length + 2 * posCount (initialCounters nodes))
    (initialSeeds nodes) (initialCounters nodes) [] le_rfl hinit
  exact ⟨h2, h3, h4, h5⟩

theorem drained_full (nodes : List Node) (hnd : (graphNames nodes).Nodup)
    (hgood : GoodGraph nodes)
    (hlen : (drainedOrder nodes).length = nodes.length) :
    ∀ v ∈ graphNames nodes, v ∈ drainedOrder nodes := by
  obtain ⟨hnodup, hsub, -, -⟩ := drained_spec nodes hnd hgood
  have hsp : (drainedOrder nodes).Subperm (graphNames nodes) :=
    List.Nodup.subperm hnodup hsub
  have hperm : (drainedOrder nodes).Perm (graphNames nodes) :=
    hsp.perm_of_length_le (by rw [hlen, graphNames_length])
  intro v hv
  exact hperm.mem_iff.mpr hv

theorem graphEdge_iff_count (nodes : List Node) (hnd : (graphNames nodes).Nodup)
    (u v : String) :
    graphEdge nodes u v ↔ 0 < (nodeEdges nodes u).count v := by
  constructor
  · rintro ⟨nd, hmem, hname, hv⟩
    rw [← hname, nodeEdges_mem nodes hnd hmem]
    exact List.count_pos_iff.mpr hv
  · intro hcnt
    have hv := List.count_pos_iff.mp hcnt
    rw [nodeEdges] at hv
    cases hfind : nodes.find? (fun x => x.tableName = u) with
    | none => rw [hfind] at hv; simp at hv
    | some nd =>
      rw [hfind] at hv
      exact ⟨nd, List.mem_of_find?_eq_some hfind,
        by simpa using List.find?_some hfind, hv⟩

theorem graphEdge_names (nodes : List Node) (hgood : GoodGraph nodes)
    {u v : String} (h : graphEdge nodes u v) :
    u ∈ graphNames nodes ∧ v ∈ graphNames nodes := by
  obtain ⟨nd, hmem, hname, hv⟩ := h
  exact ⟨hname ▸ List.mem_map_of_mem _ hmem, hgood.2 nd hmem v hv⟩

theorem acyclic_of_drained_full (nodes : List Node) (hnd : (graphNames nodes).Nodup)
    (hgood : GoodGraph nodes)
    (hlen : (drainedOrder nodes).length = nodes.length) :
    GraphAcyclic nodes := by
  obtain ⟨hnodup, hsub, hpre, -⟩ := drained_spec nodes hnd hgood
  have hfull := drained_full nodes hnd hgood hlen
  have hmono : ∀ a b, graphEdge nodes a b →
      (drainedOrder nodes).indexOf a < (drainedOrder nodes).indexOf b := by
    intro a b hE
    obtain ⟨ha, hb⟩ := graphEdge_names nodes hgood hE
    exact order_edge_lt nodes hnd (drainedOrder nodes) hnodup hsub hpre hfull a b ha hb
      ((graphEdge_iff_count nodes hnd a b).mp hE)
  intro w htg
  have hlt : ∀ a b, Relation.TransGen (graphEdge nodes) a b →
      (drainedOrder nodes).indexOf a < (drainedOrder nodes).indexOf b := by
    intro a b h
    induction h with
    | single h => exact hmono _ _ h
    | tail _ h2 ih => exact lt_trans ih (hmono _ _ h2)
  exact absurd (hlt w w htg) (lt_irrefl _)

theorem drained_full_of_acyclic (nodes : List Node) (hnd : (graphNames nodes).Nodup)
    (hgood : GoodGraph nodes) (hacyc : GraphAcyclic nodes) :
    (drainedOrder nodes).length = nodes.length := by
  obtain ⟨hnodup, hsub, -, hlast⟩ := drained_spec nodes hnd hgood
  by_contra hne
  have hlt : (drainedOrder nodes).length < nodes.length := by
    have := (List.Nodup.subperm hnodup hsub).length_le
    rw [graphNames_length] at this
    omega
  have hmiss : ∃ v, v ∈ graphNames nodes ∧ v ∉ drainedOrder nodes := by
    by_contra hno
    push_neg at hno
    have hsp : (graphNames nodes).Subperm (drainedOrder nodes) :=
      List.Nodup.subperm hnd hno
    have := hsp.length_le
    rw [graphNames_length] at this
    omega
  obtain ⟨v₁, hv₁n, hv₁o⟩ := hmiss
  have hR : ∀ v, v ∈ (graphNames nodes).filter
      (fun x => decide (x ∉ drainedOrder nodes)) ↔
      v ∈ graphNames nodes ∧ v ∉ drainedOrder nodes := by
    intro v
    rw [List.mem_filter]
    simp
  have hRne : (graphNames nodes).filter (fun x => decide (x ∉ drainedOrder nodes)) ≠ [] := by
    intro hnil
    have := (hR v₁).mpr ⟨hv₁n, hv₁o⟩
    rw [hnil] at this
    simp at this
  have hpred : ∀ v ∈ (graphNames nodes).filter (fun x => decide (x ∉ drainedOrder nodes)),
      ∃ u, u ∈ (graphNames nodes).filter (fun x => decide (x ∉ drainedOrder nodes)) ∧
        graphEdge nodes u v := by
    intro v hv
    obtain ⟨hvn, hvo⟩ := (hR v).mp hv
    obtain ⟨u, hun, huo, hcnt⟩ := exists_undone_pred nodes hnd (drainedOrder nodes)
      hnodup hsub v (hlast v hvn hvo)
    exact ⟨u, (hR u).mpr ⟨hun, huo⟩, (graphEdge_iff_count nodes hnd u v).mpr hcnt⟩
  obtain ⟨w, hw⟩ := exists_cycle_of_preds _ hRne (graphEdge nodes) hpred
  exact hacyc w hw

/-- C4: for every DependencyGraph built from a SchemaModel, TopologicalSort
succeeds with an order of full node count exactly when the foreign-key
graph is acyclic, and on a cyclic graph it returns the cycle-detected error
and no partial order. -/
theorem c4_sort_ok_iff_acyclic (s : Schema) (hnd : (schemaKeys s).Nodup) :
    ((∃ order, TopologicalSort (NewGraph s) = .ok order) ↔ GraphAcyclic (NewGraph s)) ∧
    (∀ order, TopologicalSort (NewGraph s) = .ok order →
      order.length = (NewGraph s).length) ∧
    (¬ GraphAcyclic (NewGraph s) → TopologicalSort (NewGraph s) = .error cycleErrorMsg) := by
  have hnd2 : (graphNames (NewGraph s)).Nodup := by
    rw [graphNames_newGraph]
    exact hnd
  have hgood := newGraph_good s hnd
  have hok_len : ∀ order, TopologicalSort (NewGraph s) = .ok order →
      order = drainedOrder (NewGraph s) ∧ order.length = (NewGraph s).length := by
    intro order hok
    rw [topologicalSort_eq_drained] at hok
    by_cases hc : (drainedOrder (NewGraph s)).length ≠ (NewGraph s).length
    · rw [if_pos hc] at hok
      exact absurd hok (by simp)
    · rw [if_neg hc] at hok
      rw [not_ne_iff] at hc
      have ho : drainedOrder (NewGraph s) = order := by simpa using hok
      exact ⟨ho.symm, ho ▸ hc⟩
  refine ⟨⟨?_, ?_⟩, ?_, ?_⟩
  · rintro ⟨order, hok⟩
    obtain ⟨-, hlen⟩ := hok_len order hok
    obtain ⟨rfl, -⟩ := hok_len order hok
    exact acyclic_of_drained_full (NewGraph s) hnd2 hgood hlen
  · intro hacyc
    have hlen := drained_full_of_acyclic (NewGraph s) hnd2 hgood hacyc
    refine ⟨drainedOrder (NewGraph s), ?_⟩
    rw [topologicalSort_eq_drained, if_neg (by omega)]
  · intro order hok
    exact (hok_len order hok).2
  · intro hnacyc
    rw [topologicalSort_eq_drained]
    rw [if_pos]
    intro hlen
    exact hnacyc (acyclic_of_drained_full (NewGraph s) hnd2 hgood hlen)

/-- The three-table cycle schema of the repository test suite. -/
def cycleSchema : Schema :=
  [("tableA", ⟨"tableA", [], [], [], [⟨"", "tableA", "", "tableB", ""⟩]⟩),
   ("tableB", ⟨"tableB", [], [], [], [⟨"", "tableB", "", "tableC", ""⟩]⟩),
   ("tableC", ⟨"tableC", [], [], [], [⟨"", "tableC", "", "tableA", ""⟩]⟩)]

/-- Witness for C4: the three-table cycle of the repository test suite
satisfies the hypotheses, and the cycle error is observed concretely. -/
theorem c4_sort_ok_iff_acyclic_witness :
    ((schemaKeys cycleSchema).Nodup ∧
      (¬ GraphAcyclic (NewGraph cycleSchema) →
        TopologicalSort (NewGraph cycleSchema) = .error cycleErrorMsg)) ∧
    TopologicalSort (NewGraph cycleSchema) = .error cycleErrorMsg := by
  have h := (c4_sort_ok_iff_acyclic cycleSchema (by decide)).2.2
  refine ⟨⟨by decide, h⟩, ?_⟩
  simp [TopologicalSort, NewGraph, cycleSchema, schemaForeignKeys,
    addForeignKeyEdge, applyFKEdge, hasNode, sortStrings, drainQueue, processEdges,
    nodeEdges, cidDecr, cidLookup, List.insertionSort, List.orderedInsert, cycleErrorMsg]

/-- C5: for every acyclic SchemaModel and every foreign key from child
table X to parent table Y where both tables exist in the model, the
position of Y in the order returned by TopologicalSort strictly precedes
the position of X. -/
theorem c5_order_respects_dependencies (s : Schema) (hnd : (schemaKeys s).Nodup)
    (fk : ForeignKeyInfo) (hmem : fk ∈ schemaForeignKeys s)
    (hX : fk.tableName ∈ schemaKeys s) (hY : fk.foreignTableName ∈ schemaKeys s)
    (order : List String) (hok : TopologicalSort (NewGraph s) = .ok order) :
    order.indexOf fk.foreignTableName < order.indexOf fk.tableName := by
  have hnd2 : (graphNames (NewGraph s)).Nodup := by
    rw [graphNames_newGraph]
    exact hnd
  have hgood := newGraph_good s hnd
  have hok2 : order = drainedOrder (NewGraph s) ∧
      order.length = (NewGraph s).length := by
    rw [topologicalSort_eq_drained] at hok
    by_cases hc : (drainedOrder (NewGraph s)).length ≠ (NewGraph s).length
    · rw [if_pos hc] at hok
      exact absurd hok (by simp)
    · rw [if_neg hc] at hok
      rw [not_ne_iff] at hc
      have ho : drainedOrder (NewGraph s) = order := by simpa using hok
      exact ⟨ho.symm, ho ▸ hc⟩
  obtain ⟨rfl, hlen⟩ := hok2
  obtain ⟨hnodup, hsub, hpre, -⟩ := drained_spec (NewGraph s) hnd2 hgood
  have hfull := drained_full (NewGraph s) hnd2 hgood hlen
  have hedge : fk.tableName ∈ nodeEdges (NewGraph s) fk.foreignTableName :=
    newGraph_edge_of_fk s fk hmem hX hY
  have hYn : fk.foreignTableName ∈ graphNames (NewGraph s) := by
    rw [graphNames_newGraph]; exact hY
  have hXn : fk.tableName ∈ graphNames (NewGraph s) := by
    rw [graphNames_newGraph]; exact hX
  exact order_edge_lt (NewGraph s) hnd2 (drainedOrder (NewGraph s)) hnodup hsub hpre hfull
    fk.foreignTableName fk.tableName hYn hXn (List.count_pos_iff.mpr hedge)

/-- Schema with a two-table dependency used as the C5 witness. -/
def c5Schema : Schema :=
  [("child", ⟨"child", [], [], [], [⟨"fkc", "child", "pid", "parent", "id"⟩]⟩),
   ("parent", ⟨"parent", [], [], [], []⟩)]

/-- Witness for C5 at a concrete schema. -/
theorem c5_order_respects_dependencies_witness :
    (schemaKeys c5Schema).Nodup ∧
    TopologicalSort (NewGraph c5Schema) = .ok ["parent", "child"] ∧
    (["parent", "child"] : List String).indexOf "parent" <
      (["parent", "child"] : List String).indexOf "child" := by
  have hok : TopologicalSort (NewGraph c5Schema) = .ok ["parent", "child"] := by
    simp [TopologicalSort, NewGraph, c5Schema, schemaForeignKeys,
      addForeignKeyEdge, applyFKEdge, hasNode, sortStrings, drainQueue, processEdges,
      nodeEdges, cidDecr, cidLookup, List.insertionSort, List.orderedInsert, cycleErrorMsg]
  refine ⟨by decide, hok, ?_⟩
  have := c5_order_respects_dependencies c5Schema (by decide)
    ⟨"fkc", "child", "pid", "parent", "id"⟩ (by decide) (by decide) (by decide)
    ["parent", "child"] hok
  simpa using this

/-! The parent-record resolver of internal/database, embedded as a pure
state machine over a trace of database events, with the existence probe,
statement execution and randomness abstracted into an environment. -/

/-- Left pad with zeros to the given width. -/
def padZeros (s : String) (w : Nat) : String :=
  String.mk (List.replicate (w - s.length) '0') ++ s

/-- Decimal formatting of an exact rational, modelling strconv.FormatFloat
with format f and precision -1: the shortest decimal digit string
representing the value, without an exponent. The scale search is bounded;
every value the program produces has a finite decimal form well inside the
bound. -/
def formatRatDec (q : Rat) : String :=
  let sign := if q < 0 then "-" else ""
  let n := q.num.natAbs
  let d := q.den
  let k := ((List.range 401).find? (fun k => (n * 10 ^ k) % d = 0)).getD 400
  let scaled := n * 10 ^ k / d
  if k = 0 then sign ++ toString scaled
  else sign ++ toString (scaled / 10 ^ k) ++ "." ++
    padZeros (toString (scaled % 10 ^ k)) k

/-- Formatting of a timestamp in the RFC3339 layout, as time.Format with
the RFC3339 constant produces: no fractional seconds, Z for UTC. -/
def formatRFC3339 (t : TimeRep) : String :=
  padZeros (toString t.year) 4 ++ "-" ++ padZeros (toString t.month) 2 ++ "-" ++
    padZeros (toString t.day) 2 ++ "T" ++ padZeros (toString t.hour) 2 ++ ":" ++
    padZeros (toString t.minute) 2 ++ ":" ++ padZeros (toString t.second) 2 ++
    (if t.offsetMinutes = 0 then "Z"
      else (if t.offsetMinutes < 0 then "-" else "+") ++
        padZeros (toString (t.offsetMinutes.natAbs / 60)) 2 ++ ":" ++
        padZeros (toString (t.offsetMinutes.natAbs % 60)) 2)

/-- The type switch of the recursive foreign-key loop that converts a
synthesized value back into a string for the recursive call: int64 as
base-10, float64 as shortest round-trip decimal, bool as true or false,
time as RFC3339, string passthrough. The nil case is unreachable behind
the non-nil guard; the source falls through to the Sprintf default there. -/
def formatValue : DBValue → String
  | vInt n => toString n
  | vFloat q => formatRatDec q
  | vBool b => if b then "true" else "false"
  | vTime t => formatRFC3339 t
  | vStr s => s
  | vNull => "<nil>"

/-- Oracle supplying the randomness that crypto/rand provides, one field
per draw site of generateRandomValue. -/
structure RandomOracle where
  hexToken : String
  int63 : Nat
  floatNum : Nat
  coin : Nat
  randTime : TimeRep
deriving Repr

/-- Embedding of generateRandomValue of internal/database/common.go with
the randomness abstracted into the oracle: a hex token for strings, a
nonnegative 63-bit integer, a scaled unit-interval float, a coin flip, and
a random instant within the last ten years for dates and timestamps. Only
the unknown type returns an error; the entropy-failure branches of the
source have no counterpart in the oracle model. -/
def generateRandomValue (o : RandomOracle) : ColumnDataType → Except String DBValue
  | StringType => .ok (vStr o.hexToken)
  | IntegerType => .ok (vInt (o.int63 % (2 ^ 63 - 1) : Nat))
  | FloatType => .ok (vFloat ((o.floatNum % 1000000000 : Nat) / (1000000000 : Rat)))
  | BooleanType => .ok (vBool (o.coin % 2 = 0))
  | DateType => .ok (vTime o.randTime)
  | TimestampType => .ok (vTime o.randTime)
  | UnknownType => .error "unsupported data type for random value generation: UNKNOWN"

/-- Observable database effects of the resolver and the import driver: an
entry into EnsureParentRecordExists, and an executed insert statement. -/
inductive Event where
  | callEv (table column value : String)
  | insertEv (table : String) (cols : List String) (vals : List DBValue)
deriving DecidableEq, Repr

/-- Insert events of a trace: the state-changing part. -/
def insertsOf (tr : List Event) : List Event :=
  tr.filter (fun e => match e with | .insertEv _ _ _ => true | _ => false)

/-- The database seen through its effectful operations: the existence
probe SELECT EXISTS, statement execution with its possible error, and the
randomness source. Probe and exec receive the history of events, so the
abstract database may depend on every insert executed so far. -/
structure DBEnv where
  probe : List Event → String → String → String → Bool
  exec : List Event → String → List String → List DBValue → Option String
  oracle : RandomOracle

/-- Embedding of ParentRecordExists: the SELECT EXISTS probe against the
parent table. -/
def ParentRecordExists (env : DBEnv) (tr : List Event) (dbInfo : DBInfo)
    (columnName value : String) : Bool :=
  env.probe tr dbInfo.tableName columnName value

/-- The uniqueColsMap of ensureParentRecordExistsCommon: all primary-key
columns plus the single-column unique constraints. -/
def isUniqueColumn (info : DBInfo) (name : String) : Bool :=
  info.primaryKeyColumns.contains name ∨
    info.uniqueKeyColumns.any (fun g => g = [name])

/-- Conversion result with failure degraded to the nil value, as the
logged warning branches of the synthesis loop do. -/
def orNull (e : Except String DBValue) : DBValue :=
  match e with
  | .ok v => v
  | .error _ => vNull

/-- One iteration of the value-synthesis loop of
ensureParentRecordExistsCommon: the foreign column receives the converted
foreignKeyValue, else a valid declared default is converted, else a
non-nullable unique column receives a generated random value, else the
column converts the empty string; every failure degrades to nil. -/
def synthesizeColumnValue (o : RandomOracle) (info : DBInfo)
    (foreignColumnName foreignKeyValue : String) (col : ColumnInfo) : DBValue :=
  if col.columnName = foreignColumnName then
    orNull (ConvertToDBType foreignKeyValue col.dataType col.isNullable col.columnDefault)
  else if col.columnDefault.valid then
    orNull (ConvertToDBType col.columnDefault.str col.dataType col.isNullable
      col.columnDefault)
  else if isUniqueColumn info col.columnName ∧ ¬ col.isNullable then
    orNull (generateRandomValue o col.dataType)
  else
    orNull (ConvertToDBType "" col.dataType col.isNullable col.columnDefault)

mutual

/-- Embedding of EnsureParentRecordExists of the current
internal/database/database.go: record the entry, probe, and when the
record is absent delegate to the common logic and execute the insert with
conflicts ignored. The fuel bounds the recursion depth standing for the Go
call stack, which the source does not bound; claims quantify over
sufficient fuel. -/
def EnsureParentRecordExists (fuel : Nat) (env : DBEnv) (parentDBInfo : DBInfo)
    (foreignColumnName foreignKeyValue : String) (dbSchema : Schema)
    (tr : List Event) : List Event × Option String :=
  let tr1 := tr ++ [Event.callEv parentDBInfo.tableName foreignColumnName foreignKeyValue]
  if ParentRecordExists env tr1 parentDBInfo foreignColumnName foreignKeyValue then
    (tr1, none)
  else
    match fuel with
    | 0 => (tr1, some "recursion limit reached")
    | fuel + 1 =>
      match ensureParentRecordExistsCommon fuel env parentDBInfo foreignColumnName
        foreignKeyValue dbSchema tr1 with
      | (_, _, tr2, some e) => (tr2, some e)
      | (parentCols, parentValues, tr2, none) =>
        let tr3 := tr2 ++ [Event.insertEv parentDBInfo.tableName parentCols parentValues]
        match env.exec tr2 parentDBInfo.tableName parentCols parentValues with
        | some e => (tr3, some ("failed to insert parent record into " ++
            parentDBInfo.tableName ++ ": " ++ e))
        | none => (tr3, none)
termination_by (fuel, 0, 0)

/-- Embedding of ensureParentRecordExistsCommon of
internal/database/common.go: synthesize every column value in column
order, then run the recursive foreign-key loop, and hand the columns and
values back to the caller for the insert. -/
def ensureParentRecordExistsCommon (fuel : Nat) (env : DBEnv) (parentDBInfo : DBInfo)
    (foreignColumnName foreignKeyValue : String) (dbSchema : Schema)
    (tr : List Event) : List String × List DBValue × List Event × Option String :=
  let parentCols := parentDBInfo.columns.map (fun c => c.columnName)
  let parentValues := parentDBInfo.columns.map
    (synthesizeColumnValue env.oracle parentDBInfo foreignColumnName foreignKeyValue)
  match fkRecursionLoop fuel env parentDBInfo parentValues dbSchema
    parentDBInfo.foreignKeys tr with
  | (tr2, e) => (parentCols, parentValues, tr2, e)
termination_by (fuel, 1, parentDBInfo.foreignKeys.length + 1)

/-- The recursive foreign-key loop of ensureParentRecordExistsCommon: for
each foreign key of the parent table, locate the synthesized value of its
owning column, skip a missing column or a nil value, fail when the
referenced table is absent from the schema, and otherwise recurse into the
grandparent with the stringified value before the caller inserts. -/
def fkRecursionLoop (fuel : Nat) (env : DBEnv) (parentDBInfo : DBInfo)
    (parentValues : List DBValue) (dbSchema : Schema) :
    List ForeignKeyInfo → List Event → List Event × Option String
  | [], tr => (tr, none)
  | fk :: rest, tr =>
    match parentDBInfo.columns.findIdx? (fun c => c.columnName = fk.columnName) with
    | none => fkRecursionLoop fuel env parentDBInfo parentValues dbSchema rest tr
    | some fkColIdx =>
      let fkValueInterface := parentValues.getD fkColIdx vNull
      if fkValueInterface = vNull then
        fkRecursionLoop fuel env parentDBInfo parentValues dbSchema rest tr
      else
        let fkValueStr := formatValue fkValueInterface
        match schemaFind dbSchema fk.foreignTableName with
        | none => (tr, some ("foreign table " ++ fk.foreignTableName ++
            " not found in schema info for foreign key " ++ fk.constraintName ++
            " during recursive ensureParent"))
        | some parentOfParentDBInfo =>
          match EnsureParentRecordExists fuel env parentOfParentDBInfo
            fk.foreignColumnName fkValueStr dbSchema tr with
          | (tr2, some e) =>
            (tr2, some ("failed to recursively ensure parent record for " ++
              fk.foreignTableName ++ "." ++ fk.foreignColumnName ++
              " (value: " ++ fkValueStr ++ "): " ++ e))
          | (tr2, none) =>
            fkRecursionLoop fuel env parentDBInfo parentValues dbSchema rest tr2
termination_by fks tr => (fuel, 1, fks.length)

end

/-- Every resolver call extends the trace: the entry event is appended
first, and the foreign-key loop only ever appends. -/
theorem trace_growth (fuel : Nat) :
    (∀ (env : DBEnv) (info : DBInfo) (fcol fval : String) (schema : Schema)
      (tr : List Event), ∃ Δ,
      (EnsureParentRecordExists fuel env info fcol fval schema tr).1 =
        tr ++ Event.callEv info.tableName fcol fval :: Δ) ∧
    (∀ (env : DBEnv) (info : DBInfo) (vals : List DBValue) (schema : Schema)
      (fks : List ForeignKeyInfo) (tr : List Event), ∃ Δ,
      (fkRecursionLoop fuel env info vals schema fks tr).1 = tr ++ Δ) := by
  induction fuel with
  | zero =>
    have hepre : ∀ (env : DBEnv) (info : DBInfo) (fcol fval : String) (schema : Schema)
        (tr : List Event), ∃ Δ,
        (EnsureParentRecordExists 0 env info fcol fval schema tr).1 =
          tr ++ Event.callEv info.tableName fcol fval :: Δ := by
      intro env info fcol fval schema tr
      rw [EnsureParentRecordExists]
      split_ifs with h
      · exact ⟨[], by simp⟩
      · exact ⟨[], by simp⟩
    refine ⟨hepre, ?_⟩
    intro env info vals schema fks
    induction fks with
    | nil => intro tr; exact ⟨[], by simp [fkRecursionLoop]⟩
    | cons fk rest ih =>
      intro tr
      rw [fkRecursionLoop]
      cases hidx : info.columns.findIdx? (fun c => c.columnName = fk.columnName) with
      | none => exact ih tr
      | some idx =>
        by_cases hnull : vals.getD idx vNull = vNull
        · simp only [hnull, if_pos]
          exact ih tr
        · simp only [if_neg hnull]
          cases hfind : schemaFind schema fk.foreignTableName with
          | none => exact ⟨[], by simp⟩
          | some g =>
            obtain ⟨Δ₁, hΔ₁⟩ := hepre env g fk.foreignColumnName
              (formatValue (vals.getD idx vNull)) schema tr
            cases hres : EnsureParentRecordExists 0 env g fk.foreignColumnName
              (formatValue (vals.getD idx vNull)) schema tr with
            | mk tr2 err =>
              have htr2 : tr2 = tr ++ Event.callEv g.tableName fk.foreignColumnName
                  (formatValue (vals.getD idx vNull)) :: Δ₁ := by
                rw [← hΔ₁, hres]
              cases err with
              | some e =>
                refine ⟨Event.callEv g.tableName fk.foreignColumnName
                  (formatValue (vals.getD idx vNull)) :: Δ₁, ?_⟩
                simp only [hres]
                exact htr2
              | none =>
                obtain ⟨Δ₂, hΔ₂⟩ := ih tr2
                refine ⟨(Event.callEv g.tableName fk.foreignColumnName
                  (formatValue (vals.getD idx vNull)) :: Δ₁) ++ Δ₂, ?_⟩
                simp only [hres]
                rw [hΔ₂, htr2, List.append_assoc]
  | succ fuel ih =>
    have hepre : ∀ (env : DBEnv) (info : DBInfo) (fcol fval : String) (schema : Schema)
        (tr : List Event), ∃ Δ,
        (EnsureParentRecordExists (fuel + 1) env info fcol fval schema tr).1 =
          tr ++ Event.callEv info.tableName fcol fval :: Δ := by
      intro env info fcol fval schema tr
      rw [EnsureParentRecordExists]
      split_ifs with h
      · exact ⟨[], by simp⟩
      · simp only [ensureParentRecordExistsCommon]
        obtain ⟨Δ, hΔ⟩ := ih.2 env info
          (info.columns.map (synthesizeColumnValue env.oracle info fcol fval)) schema
          info.foreignKeys (tr ++ [Event.callEv info.tableName fcol fval])
        cases hloop : fkRecursionLoop fuel env info
            (info.columns.map (synthesizeColumnValue env.oracle info fcol fval)) schema
            info.foreignKeys (tr ++ [Event.callEv info.tableName fcol fval]) with
        | mk tr2 err =>
          have htr2 : tr2 = (tr ++ [Event.callEv info.tableName fcol fval]) ++ Δ := by
            rw [← hΔ, hloop]
          cases err with
          | some e =>
            refine ⟨Δ, ?_⟩
            simp only [hloop]
            rw [htr2]
            simp
          | none =>
            refine ⟨Δ ++ [Event.insertEv info.tableName
              (info.columns.map (fun c => c.columnName))
              (info.columns.map (synthesizeColumnValue env.oracle info fcol fval))], ?_⟩
            simp only [hloop]
            cases hexec : env.exec tr2 info.tableName
                (info.columns.map (fun c => c.columnName))
                (info.columns.map (synthesizeColumnValue env.oracle info fcol fval)) with
            | some e =>
              simp only [hexec]
              rw [htr2]
              simp
            | none =>
              simp only [hexec]
              rw [htr2]
              simp
    refine ⟨hepre, ?_⟩
    intro env info vals schema fks
    induction fks with
    | nil => intro tr; exact ⟨[], by simp [fkRecursionLoop]⟩
    | cons fk rest ih2 =>
      intro tr
      rw [fkRecursionLoop]
      cases hidx : info.columns.findIdx? (fun c => c.columnName = fk.columnName) with
      | none => exact ih2 tr
      | some idx =>
        by_cases hnull : vals.getD idx vNull = vNull
        · simp only [hnull, if_pos]
          exact ih2 tr
        · simp only [if_neg hnull]
          cases hfind : schemaFind schema fk.foreignTableName with
          | none => exact ⟨[], by simp⟩
          | some g =>
            obtain ⟨Δ₁, hΔ₁⟩ := hepre env g fk.foreignColumnName
              (formatValue (vals.getD idx vNull)) schema tr
            cases hres : EnsureParentRecordExists (fuel + 1) env g fk.foreignColumnName
              (formatValue (vals.getD idx vNull)) schema tr with
            | mk tr2 err =>
              have htr2 : tr2 = tr ++ Event.callEv g.tableName fk.foreignColumnName
                  (formatValue (vals.getD idx vNull)) :: Δ₁ := by
                rw [← hΔ₁, hres]
              cases err with
              | some e =>
                refine ⟨Event.callEv g.tableName fk.foreignColumnName
                  (formatValue (vals.getD idx vNull)) :: Δ₁, ?_⟩
                simp only [hres]
                exact htr2
              | none =>
                obtain ⟨Δ₂, hΔ₂⟩ := ih2 tr2
                refine ⟨(Event.callEv g.tableName fk.foreignColumnName
                  (formatValue (vals.getD idx vNull)) :: Δ₁) ++ Δ₂, ?_⟩
                simp only [hres]
                rw [hΔ₂, htr2, List.append_assoc]

/-- Fixture oracle for concrete resolver runs. -/
def oracleFix : RandomOracle := ⟨"ab12", 7, 5, 2, zeroTime⟩

/-- Environment whose probe always reports the record present. -/
def envHit : DBEnv := ⟨fun _ _ _ _ => true, fun _ _ _ _ => none, oracleFix⟩

/-- Environment whose probe always reports the record absent and whose
statement execution always succeeds. -/
def envMiss : DBEnv := ⟨fun _ _ _ _ => false, fun _ _ _ _ => none, oracleFix⟩

/-- A one-column users table for concrete resolver runs. -/
def usersInfo : DBInfo :=
  ⟨"users", [⟨"id", IntegerType, false, ⟨"", false⟩⟩], ["id"], [], []⟩

/-- C7: when the existence probe reports the parent record present,
EnsureParentRecordExists returns success immediately: the trace gains only
the entry marker of the call itself, so no row is synthesized, no
recursive call happens, no insert is executed, and the set of executed
inserts is unchanged. -/
theorem c7_probe_hit_is_noop (fuel : Nat) (env : DBEnv) (info : DBInfo)
    (fcol fval : String) (schema : Schema) (tr : List Event)
    (hprobe : ParentRecordExists env (tr ++ [Event.callEv info.tableName fcol fval])
      info fcol fval = true) :
    EnsureParentRecordExists fuel env info fcol fval schema tr =
      (tr ++ [Event.callEv info.tableName fcol fval], none) ∧
    insertsOf (EnsureParentRecordExists fuel env info fcol fval schema tr).1 =
      insertsOf tr := by
  have h : EnsureParentRecordExists fuel env info fcol fval schema tr =
      (tr ++ [Event.callEv info.tableName fcol fval], none) := by
    cases fuel with
    | zero => rw [EnsureParentRecordExists, if_pos hprobe]
    | succ n => rw [EnsureParentRecordExists, if_pos hprobe]
  refine ⟨h, ?_⟩
  rw [h]
  simp [insertsOf]

/-- The C7 theorem run on a concrete hit: the call leaves only its entry
marker and changes no inserts. -/
theorem c7_probe_hit_is_noop_witness :
    EnsureParentRecordExists 1 envHit usersInfo "id" "7" [] [] =
      ([] ++ [Event.callEv usersInfo.tableName "id" "7"], none) ∧
    insertsOf (EnsureParentRecordExists 1 envHit usersInfo "id" "7" [] []).1 =
      insertsOf [] :=
  c7_probe_hit_is_noop 1 envHit usersInfo "id" "7" [] [] rfl

/-- C2: when the probe misses and the call succeeds, the executed insert
carries exactly one value per parent column, each chosen by the first
matching rule: the triggering foreign column converts foreignKeyValue with
failure degrading to null, else a valid declared default is converted,
else a non-nullable primary-key or single-column-unique column receives a
random value of its type, else the empty string is converted. -/
theorem c2_synthesis_precedence (fuel : Nat) (env : DBEnv) (info : DBInfo)
    (fcol fval : String) (schema : Schema) (tr : List Event)
    (hprobe : ParentRecordExists env (tr ++ [Event.callEv info.tableName fcol fval])
      info fcol fval = false)
    (hok : (EnsureParentRecordExists (fuel + 1) env info fcol fval schema tr).2 = none) :
    ∃ tr2, (EnsureParentRecordExists (fuel + 1) env info fcol fval schema tr).1 =
      tr2 ++ [Event.insertEv info.tableName (info.columns.map (fun c => c.columnName))
        (info.columns.map (fun col =>
          if col.columnName = fcol then
            orNull (ConvertToDBType fval col.dataType col.isNullable col.columnDefault)
          else if col.columnDefault.valid then
            orNull (ConvertToDBType col.columnDefault.str col.dataType col.isNullable
              col.columnDefault)
          else if isUniqueColumn info col.columnName ∧ ¬ col.isNullable then
            orNull (generateRandomValue env.oracle col.dataType)
          else
            orNull (ConvertToDBType "" col.dataType col.isNullable col.columnDefault)))] := by
  have hmap : info.columns.map (fun col =>
      if col.columnName = fcol then
        orNull (ConvertToDBType fval col.dataType col.isNullable col.columnDefault)
      else if col.columnDefault.valid then
        orNull (ConvertToDBType col.columnDefault.str col.dataType col.isNullable
          col.columnDefault)
      else if isUniqueColumn info col.columnName ∧ ¬ col.isNullable then
        orNull (generateRandomValue env.oracle col.dataType)
      else
        orNull (ConvertToDBType "" col.dataType col.isNullable col.columnDefault)) =
      info.columns.map (synthesizeColumnValue env.oracle info fcol fval) := rfl
  rw [hmap]
  rw [EnsureParentRecordExists, if_neg (by rw [hprobe]; simp)] at hok ⊢
  simp only [ensureParentRecordExistsCommon] at hok ⊢
  cases hloop : fkRecursionLoop fuel env info
      (info.columns.map (synthesizeColumnValue env.oracle info fcol fval)) schema
      info.foreignKeys (tr ++ [Event.callEv info.tableName fcol fval]) with
  | mk tr2 err =>
    cases err with
    | some e =>
      rw [hloop] at hok
      simp at hok
    | none =>
      cases hexec : env.exec tr2 info.tableName
          (info.columns.map (fun c => c.columnName))
          (info.columns.map (synthesizeColumnValue env.oracle info fcol fval)) with
      | some e =>
        rw [hloop] at hok
        simp [hexec] at hok
      | none =>
        refine ⟨tr2, ?_⟩
        simp [hexec]

/-- The C2 theorem run on a concrete miss: the resolver inserts exactly
the rule-synthesized values for the users table. -/
theorem c2_synthesis_precedence_witness :
    ParentRecordExists envMiss ([] ++ [Event.callEv usersInfo.tableName "id" "7"])
      usersInfo "id" "7" = false ∧
    (EnsureParentRecordExists 1 envMiss usersInfo "id" "7" [] []).2 = none ∧
    ∃ tr2, (EnsureParentRecordExists 1 envMiss usersInfo "id" "7" [] []).1 =
      tr2 ++ [Event.insertEv usersInfo.tableName
        (usersInfo.columns.map (fun c => c.columnName))
        (usersInfo.columns.map (fun col =>
          if col.columnName = "id" then
            orNull (ConvertToDBType "7" col.dataType col.isNullable col.columnDefault)
          else if col.columnDefault.valid then
            orNull (ConvertToDBType col.columnDefault.str col.dataType col.isNullable
              col.columnDefault)
          else if isUniqueColumn usersInfo col.columnName ∧ ¬ col.isNullable then
            orNull (generateRandomValue envMiss.oracle col.dataType)
          else
            orNull (ConvertToDBType "" col.dataType col.isNullable col.columnDefault)))] := by
  refine ⟨rfl, ?_, ?_⟩
  · simp [EnsureParentRecordExists, ensureParentRecordExistsCommon, fkRecursionLoop,
      ParentRecordExists, envMiss, usersInfo]
  · exact c2_synthesis_precedence 0 envMiss usersInfo "id" "7" [] [] rfl
      (by simp [EnsureParentRecordExists, ensureParentRecordExistsCommon, fkRecursionLoop,
        ParentRecordExists, envMiss, usersInfo])

/-- Unfolding of the foreign-key loop when the owning column is missing:
the foreign key is skipped. -/
theorem fkLoop_cons_notfound (fuel : Nat) (env : DBEnv) (info : DBInfo)
    (vals : List DBValue) (schema : Schema) (fk0 : ForeignKeyInfo)
    (rest : List ForeignKeyInfo) (tr : List Event)
    (hidx : info.columns.findIdx? (fun c => c.columnName = fk0.columnName) = none) :
    fkRecursionLoop fuel env info vals schema (fk0 :: rest) tr =
      fkRecursionLoop fuel env info vals schema rest tr := by
  rw [fkRecursionLoop, hidx]

/-- Unfolding of the foreign-key loop when the synthesized value is nil:
the foreign key is skipped. -/
theorem fkLoop_cons_null (fuel : Nat) (env : DBEnv) (info : DBInfo)
    (vals : List DBValue) (schema : Schema) (fk0 : ForeignKeyInfo)
    (rest : List ForeignKeyInfo) (tr : List Event) (idx : Nat)
    (hidx : info.columns.findIdx? (fun c => c.columnName = fk0.columnName) = some idx)
    (hval : vals.getD idx vNull = vNull) :
    fkRecursionLoop fuel env info vals schema (fk0 :: rest) tr =
      fkRecursionLoop fuel env info vals schema rest tr := by
  rw [fkRecursionLoop, hidx]
  exact if_pos hval

/-- Unfolding of the foreign-key loop on a live foreign key: look up the
grandparent table and recurse with the stringified value. -/
theorem fkLoop_cons_found (fuel : Nat) (env : DBEnv) (info : DBInfo)
    (vals : List DBValue) (schema : Schema) (fk0 : ForeignKeyInfo)
    (rest : List ForeignKeyInfo) (tr : List Event) (idx : Nat)
    (hidx : info.columns.findIdx? (fun c => c.columnName = fk0.columnName) = some idx)
    (hnn : vals.getD idx vNull ≠ vNull) :
    fkRecursionLoop fuel env info vals schema (fk0 :: rest) tr =
      (match schemaFind schema fk0.foreignTableName with
      | none => (tr, some ("foreign table " ++ fk0.foreignTableName ++
          " not found in schema info for foreign key " ++ fk0.constraintName ++
          " during recursive ensureParent"))
      | some g =>
        match EnsureParentRecordExists fuel env g fk0.foreignColumnName
          (formatValue (vals.getD idx vNull)) schema tr with
        | (tr2, some e) =>
          (tr2, some ("failed to recursively ensure parent record for " ++
            fk0.foreignTableName ++ "." ++ fk0.foreignColumnName ++
            " (value: " ++ formatValue (vals.getD idx vNull) ++ "): " ++ e))
        | (tr2, none) => fkRecursionLoop fuel env info vals schema rest tr2) := by
  rw [fkRecursionLoop, hidx]
  exact if_neg hnn

/-- On a successful pass of the foreign-key loop, every foreign key whose
owning column was found and whose synthesized value is non-null has a
resolvable foreign table, and the resolver call into its grandparent is
recorded in the resulting trace. -/
theorem fkLoop_spec (fuel : Nat) (env : DBEnv) (info : DBInfo) (vals : List DBValue)
    (schema : Schema) :
    ∀ (fks : List ForeignKeyInfo) (tr : List Event),
      (fkRecursionLoop fuel env info vals schema fks tr).2 = none →
      ∀ fk ∈ fks, ∀ idx,
        info.columns.findIdx? (fun c => c.columnName = fk.columnName) = some idx →
        vals.getD idx vNull ≠ vNull →
        ∃ g, schemaFind schema fk.foreignTableName = some g ∧
          Event.callEv g.tableName fk.foreignColumnName (formatValue (vals.getD idx vNull)) ∈
            (fkRecursionLoop fuel env info vals schema fks tr).1 := by
  intro fks
  induction fks with
  | nil =>
    intro tr _ fk hfk
    simp at hfk
  | cons fk0 rest ih =>
    intro tr hok fk hfk idx hidx hnn
    rcases List.mem_cons.mp hfk with rfl | hfkr
    · have heq := fkLoop_cons_found fuel env info vals schema fk rest tr idx hidx hnn
      cases hfind : schemaFind schema fk.foreignTableName with
      | none =>
        simp only [hfind] at heq
        rw [heq] at hok
        simp at hok
      | some g =>
        simp only [hfind] at heq
        cases hres : EnsureParentRecordExists fuel env g fk.foreignColumnName
            (formatValue (vals.getD idx vNull)) schema tr with
        | mk tr2 err =>
          simp only [hres] at heq
          cases err with
          | some e =>
            rw [heq] at hok
            simp at hok
          | none =>
            refine ⟨g, rfl, ?_⟩
            rw [heq]
            obtain ⟨Δ₁, hΔ₁⟩ := (trace_growth fuel).1 env g fk.foreignColumnName
              (formatValue (vals.getD idx vNull)) schema tr
            have htr2 : tr2 = tr ++ Event.callEv g.tableName fk.foreignColumnName
                (formatValue (vals.getD idx vNull)) :: Δ₁ := by
              rw [← hΔ₁, hres]
            obtain ⟨Δ₂, hΔ₂⟩ := (trace_growth fuel).2 env info vals schema rest tr2
            rw [hΔ₂, htr2]
            simp
    · cases hidx0 : info.columns.findIdx? (fun c => c.columnName = fk0.columnName) with
      | none =>
        have heq := fkLoop_cons_notfound fuel env info vals schema fk0 rest tr hidx0
        rw [heq] at hok ⊢
        exact ih tr hok fk hfkr idx hidx hnn
      | some idx0 =>
        by_cases hval : vals.getD idx0 vNull = vNull
        · have heq := fkLoop_cons_null fuel env info vals schema fk0 rest tr idx0 hidx0 hval
          rw [heq] at hok ⊢
          exact ih tr hok fk hfkr idx hidx hnn
        · have heq := fkLoop_cons_found fuel env info vals schema fk0 rest tr idx0 hidx0 hval
          cases hfind : schemaFind schema fk0.foreignTableName with
          | none =>
            simp only [hfind] at heq
            rw [heq] at hok
            simp at hok
          | some g0 =>
            simp only [hfind] at heq
            cases hres : EnsureParentRecordExists fuel env g0 fk0.foreignColumnName
                (formatValue (vals.getD idx0 vNull)) schema tr with
            | mk tr2 err =>
              simp only [hres] at heq
              cases err with
              | some e =>
                rw [heq] at hok
                simp at hok
              | none =>
                rw [heq] at hok ⊢
                exact ih tr2 hok fk hfkr idx hidx hnn

/-- The foreign key of the orders table referencing users. -/
def fkOrdersUsers : ForeignKeyInfo :=
  ⟨"fk_orders_users", "orders", "user_id", "users", "id"⟩

/-- A two-column orders table whose user_id references users.id. -/
def ordersInfo : DBInfo :=
  ⟨"orders",
    [⟨"id", IntegerType, false, ⟨"", false⟩⟩,
      ⟨"user_id", IntegerType, false, ⟨"", false⟩⟩],
    ["id"], [], [fkOrdersUsers]⟩

/-- Schema holding users and orders, for concrete resolver runs. -/
def c1Schema : Schema := [("users", usersInfo), ("orders", ordersInfo)]

/-- C1: a resolver call on a missing parent record ends, when it
succeeds, with the insert of the synthesized row, and for every foreign
key of the parent table whose owning column was found and whose
synthesized value is non-null, the recursive resolver call into the
grandparent — carrying the stringified value — is recorded strictly
before that insert; and when the first foreign key is live but its
foreign table is absent from the schema, the call fails with the
missing-table error and executes no insert at all. -/
theorem c1_recursive_fk_resolution (fuel : Nat) (env : DBEnv) (info : DBInfo)
    (fcol fval : String) (schema : Schema) (tr : List Event)
    (hprobe : ParentRecordExists env (tr ++ [Event.callEv info.tableName fcol fval])
      info fcol fval = false) :
    ((EnsureParentRecordExists (fuel + 1) env info fcol fval schema tr).2 = none →
      ∃ tr2, (EnsureParentRecordExists (fuel + 1) env info fcol fval schema tr).1 =
          tr2 ++ [Event.insertEv info.tableName
            (info.columns.map (fun c => c.columnName))
            (info.columns.map (synthesizeColumnValue env.oracle info fcol fval))] ∧
        ∀ fk ∈ info.foreignKeys, ∀ idx,
          info.columns.findIdx? (fun c => c.columnName = fk.columnName) = some idx →
          (info.columns.map (synthesizeColumnValue env.oracle info fcol
            fval)).getD idx vNull ≠ vNull →
          ∃ g, schemaFind schema fk.foreignTableName = some g ∧
            Event.callEv g.tableName fk.foreignColumnName
              (formatValue ((info.columns.map (synthesizeColumnValue env.oracle info
                fcol fval)).getD idx vNull)) ∈ tr2) ∧
    (∀ fk rest idx, info.foreignKeys = fk :: rest →
      info.columns.findIdx? (fun c => c.columnName = fk.columnName) = some idx →
      (info.columns.map (synthesizeColumnValue env.oracle info fcol
        fval)).getD idx vNull ≠ vNull →
      schemaFind schema fk.foreignTableName = none →
      (EnsureParentRecordExists (fuel + 1) env info fcol fval schema tr).2 =
          some ("foreign table " ++ fk.foreignTableName ++
            " not found in schema info for foreign key " ++ fk.constraintName ++
            " during recursive ensureParent") ∧
        insertsOf (EnsureParentRecordExists (fuel + 1) env info fcol fval schema tr).1 =
          insertsOf tr) := by
  rw [EnsureParentRecordExists, if_neg (by rw [hprobe]; simp)]
  simp only [ensureParentRecordExistsCommon]
  constructor
  · intro hok
    revert hok
    cases hloop : fkRecursionLoop fuel env info
        (info.columns.map (synthesizeColumnValue env.oracle info fcol fval)) schema
        info.foreignKeys (tr ++ [Event.callEv info.tableName fcol fval]) with
    | mk tr2 err =>
      intro hok
      cases err with
      | some e => simp at hok
      | none =>
        cases hexec : env.exec tr2 info.tableName
            (info.columns.map (fun c => c.columnName))
            (info.columns.map (synthesizeColumnValue env.oracle info fcol fval)) with
        | some e =>
          simp [hexec] at hok
        | none =>
          refine ⟨tr2, by simp [hexec], ?_⟩
          intro fk hfk idx hidx hnn
          obtain ⟨g, hg, hmem⟩ := fkLoop_spec fuel env info
            (info.columns.map (synthesizeColumnValue env.oracle info fcol fval)) schema
            info.foreignKeys (tr ++ [Event.callEv info.tableName fcol fval])
            (by rw [hloop]) fk hfk idx hidx hnn
          rw [hloop] at hmem
          exact ⟨g, hg, hmem⟩
  · intro fk rest idx hfks hidx hnn hfind
    have heq := fkLoop_cons_found fuel env info
      (info.columns.map (synthesizeColumnValue env.oracle info fcol fval)) schema
      fk rest (tr ++ [Event.callEv info.tableName fcol fval]) idx hidx hnn
    simp only [hfind] at heq
    rw [hfks, heq]
    constructor
    · simp
    · simp [insertsOf]

/-- The C1 theorem run concretely: resolving a missing orders row with a
live user_id foreign key records the recursive users call before the
orders insert, and the same call against an empty schema fails with the
missing-table error and no insert. -/
theorem c1_recursive_fk_resolution_witness :
    (∃ tr2, (EnsureParentRecordExists 2 envMiss ordersInfo "id" "5" c1Schema []).1 =
        tr2 ++ [Event.insertEv ordersInfo.tableName
          (ordersInfo.columns.map (fun c => c.columnName))
          (ordersInfo.columns.map (synthesizeColumnValue envMiss.oracle ordersInfo
            "id" "5"))] ∧
      ∀ fk ∈ ordersInfo.foreignKeys, ∀ idx,
        ordersInfo.columns.findIdx? (fun c => c.columnName = fk.columnName) = some idx →
        (ordersInfo.columns.map (synthesizeColumnValue envMiss.oracle ordersInfo "id"
          "5")).getD idx vNull ≠ vNull →
        ∃ g, schemaFind c1Schema fk.foreignTableName = some g ∧
          Event.callEv g.tableName fk.foreignColumnName
            (formatValue ((ordersInfo.columns.map (synthesizeColumnValue envMiss.oracle
              ordersInfo "id" "5")).getD idx vNull)) ∈ tr2) ∧
    ((EnsureParentRecordExists 2 envMiss ordersInfo "id" "5" [] []).2 =
        some ("foreign table " ++ fkOrdersUsers.foreignTableName ++
          " not found in schema info for foreign key " ++ fkOrdersUsers.constraintName ++
          " during recursive ensureParent") ∧
      insertsOf (EnsureParentRecordExists 2 envMiss ordersInfo "id" "5" [] []).1 =
        insertsOf []) := by
  constructor
  · exact (c1_recursive_fk_resolution 1 envMiss ordersInfo "id" "5" c1Schema [] rfl).1
      (by simp [EnsureParentRecordExists, ensureParentRecordExistsCommon, fkRecursionLoop,
        ParentRecordExists, envMiss, oracleFix, c1Schema, schemaFind, usersInfo,
        ordersInfo, fkOrdersUsers, synthesizeColumnValue, isUniqueColumn, orNull,
        ConvertToDBType, formatValue, generateRandomValue])
  · exact (c1_recursive_fk_resolution 1 envMiss ordersInfo "id" "5" [] [] rfl).2
      fkOrdersUsers [] 1 rfl (by decide) (by decide) rfl

/-! The per-row processing of ImportSingleCSV of the current importer,
embedded over the same event traces as the resolver. The CSV reader and
statement preparation are outside the claim; rows arrive as lists of
fields and the prepared insert executes through the environment. -/

/-- The column-map construction of ImportSingleCSV for a CSV with a
header: each database column maps to the index of the first header field
whose name matches case-insensitively; an unmatched column is absent from
the map and falls back to the empty extracted value. -/
def buildColumnMap (columns : List ColumnInfo) (csvHeader : List String) :
    List (String × Nat) :=
  columns.filterMap (fun col =>
    (csvHeader.findIdx? (fun h => col.columnName.toLower = h.toLower)).map
      (fun i => (col.columnName, i)))

/-- The per-column CSV value extraction of the row loop: the mapped index
must exist and lie inside the record, else the empty string. -/
def extractCSVValue (columnMap : List (String × Nat)) (record : List String)
    (colName : String) : String :=
  match columnMap.find? (fun p => p.1 = colName) with
  | some p => if p.2 < record.length then record.getD p.2 "" else ""
  | none => ""

/-- The foreign-key scan of one column in the row loop of ImportSingleCSV:
the first foreign key owned by the column resolves its parent and the scan
stops; the schema lookup precedes the empty-value check, an empty value
skips resolution as an intentional null, and a resolver failure aborts the
import. -/
def resolveColumnFK (fuel : Nat) (env : DBEnv) (dbSchema : Schema)
    (colName csvVal : String) :
    List ForeignKeyInfo → List Event → List Event × Option String
  | [], tr => (tr, none)
  | fk :: rest, tr =>
    if fk.columnName = colName then
      match schemaFind dbSchema fk.foreignTableName with
      | none => (tr, some ("foreign table " ++ fk.foreignTableName ++
          " not found in schema info for foreign key " ++ fk.constraintName))
      | some parentDBInfo =>
        if csvVal = "" then
          resolveColumnFK fuel env dbSchema colName csvVal rest tr
        else
          match EnsureParentRecordExists fuel env parentDBInfo fk.foreignColumnName
            csvVal dbSchema tr with
          | (tr2, some e) =>
            (tr2, some ("failed to ensure parent record exists for " ++
              fk.foreignTableName ++ "." ++ fk.foreignColumnName ++
              " (value: " ++ csvVal ++ "): " ++ e))
          | (tr2, none) => (tr2, none)
    else
      resolveColumnFK fuel env dbSchema colName csvVal rest tr

/-- Processing of one column of one CSV row: extract the value, resolve
its foreign key if any, then convert — a conversion failure degrades the
value to nil while a resolver failure aborts. -/
def processColumn (fuel : Nat) (env : DBEnv) (dbSchema : Schema) (dbInfo : DBInfo)
    (columnMap : List (String × Nat)) (record : List String) (col : ColumnInfo)
    (tr : List Event) : List Event × Except String DBValue :=
  let csvVal := extractCSVValue columnMap record col.columnName
  match resolveColumnFK fuel env dbSchema col.columnName csvVal dbInfo.foreignKeys tr with
  | (tr2, some e) => (tr2, .error e)
  | (tr2, none) =>
    match ConvertToDBType csvVal col.dataType col.isNullable col.columnDefault with
    | .error _ => (tr2, .ok vNull)
    | .ok v => (tr2, .ok v)

/-- Processing of every column of one CSV row, in column order. -/
def processRecordColumns (fuel : Nat) (env : DBEnv) (dbSchema : Schema)
    (dbInfo : DBInfo) (columnMap : List (String × Nat)) (record : List String) :
    List ColumnInfo → List Event → List Event × Except String (List DBValue)
  | [], tr => (tr, .ok [])
  | col :: rest, tr =>
    match processColumn fuel env dbSchema dbInfo columnMap record col tr with
    | (tr2, .error e) => (tr2, .error e)
    | (tr2, .ok v) =>
      match processRecordColumns fuel env dbSchema dbInfo columnMap record rest tr2 with
      | (tr3, .error e) => (tr3, .error e)
      | (tr3, .ok vs) => (tr3, .ok (v :: vs))

/-- The row loop of ImportSingleCSV: each record is processed column by
column and its insert executed; an execution failure is logged and the
loop continues with the next record, while a resolver failure aborts
the import with the error. -/
def importRows (fuel : Nat) (env : DBEnv) (dbSchema : Schema) (dbInfo : DBInfo)
    (columnMap : List (String × Nat)) :
    List (List String) → List Event → List Event × List String × Option String
  | [], tr => (tr, [], none)
  | record :: rest, tr =>
    match processRecordColumns fuel env dbSchema dbInfo columnMap record
      dbInfo.columns tr with
    | (tr2, .error e) => (tr2, [], some e)
    | (tr2, .ok values) =>
      let cols := dbInfo.columns.map (fun c => c.columnName)
      let tr3 := tr2 ++ [Event.insertEv dbInfo.tableName cols values]
      match env.exec tr2 dbInfo.tableName cols values with
      | some e =>
        match importRows fuel env dbSchema dbInfo columnMap rest tr3 with
        | (tr4, logs, err) =>
          (tr4, ("Error inserting record into " ++ dbInfo.tableName ++ ": " ++ e) ::
            logs, err)
      | none => importRows fuel env dbSchema dbInfo columnMap rest tr3

/-- C8: in the row loop of ImportSingleCSV, a live foreign-key column
triggers the parent-record resolver before conversion while an empty
foreign-key value skips resolution entirely; a conversion failure makes
the column nil without failing the row; a record shorter than the mapped
index yields the empty string instead of an index error; and a failed
insert of one row is logged and processing continues with the next row. -/
theorem c8_row_processing (fuel : Nat) (env : DBEnv) (dbSchema : Schema)
    (dbInfo : DBInfo) (columnMap : List (String × Nat)) (record : List String)
    (col : ColumnInfo) (tr tr2 : List Event) (fk : ForeignKeyInfo)
    (parent : DBInfo) (rest : List (List String)) (values : List DBValue)
    (e : String) (p : String × Nat) :
    (dbInfo.foreignKeys = [fk] → fk.columnName = col.columnName →
      extractCSVValue columnMap record col.columnName ≠ "" →
      schemaFind dbSchema fk.foreignTableName = some parent →
      (processColumn fuel env dbSchema dbInfo columnMap record col tr).1 =
        (EnsureParentRecordExists fuel env parent fk.foreignColumnName
          (extractCSVValue columnMap record col.columnName) dbSchema tr).1 ∧
      ((EnsureParentRecordExists fuel env parent fk.foreignColumnName
          (extractCSVValue columnMap record col.columnName) dbSchema tr).2 = none →
        (processColumn fuel env dbSchema dbInfo columnMap record col tr).2 =
          .ok (orNull (ConvertToDBType (extractCSVValue columnMap record col.columnName)
            col.dataType col.isNullable col.columnDefault)))) ∧
    (dbInfo.foreignKeys = [fk] → fk.columnName = col.columnName →
      extractCSVValue columnMap record col.columnName = "" →
      schemaFind dbSchema fk.foreignTableName = some parent →
      processColumn fuel env dbSchema dbInfo columnMap record col tr =
        (tr, .ok (orNull (ConvertToDBType (extractCSVValue columnMap record
          col.columnName) col.dataType col.isNullable col.columnDefault)))) ∧
    (resolveColumnFK fuel env dbSchema col.columnName
        (extractCSVValue columnMap record col.columnName) dbInfo.foreignKeys tr =
        (tr2, none) →
      ConvertToDBType (extractCSVValue columnMap record col.columnName) col.dataType
        col.isNullable col.columnDefault = .error e →
      processColumn fuel env dbSchema dbInfo columnMap record col tr = (tr2, .ok vNull)) ∧
    (columnMap.find? (fun q => q.1 = col.columnName) = some p → record.length ≤ p.2 →
      extractCSVValue columnMap record col.columnName = "") ∧
    (processRecordColumns fuel env dbSchema dbInfo columnMap record dbInfo.columns tr =
        (tr2, .ok values) →
      env.exec tr2 dbInfo.tableName (dbInfo.columns.map (fun c => c.columnName)) values =
        some e →
      importRows fuel env dbSchema dbInfo columnMap (record :: rest) tr =
        ((importRows fuel env dbSchema dbInfo columnMap rest
            (tr2 ++ [Event.insertEv dbInfo.tableName
              (dbInfo.columns.map (fun c => c.columnName)) values])).1,
          ("Error inserting record into " ++ dbInfo.tableName ++ ": " ++ e) ::
            (importRows fuel env dbSchema dbInfo columnMap rest
              (tr2 ++ [Event.insertEv dbInfo.tableName
                (dbInfo.columns.map (fun c => c.columnName)) values])).2.1,
          (importRows fuel env dbSchema dbInfo columnMap rest
            (tr2 ++ [Event.insertEv dbInfo.tableName
              (dbInfo.columns.map (fun c => c.columnName)) values])).2.2)) := by
  refine ⟨?_, ?_, ?_, ?_, ?_⟩
  · intro hfks hcol hne hfind
    rw [processColumn, hfks, resolveColumnFK, if_pos hcol, hfind]
    cases hres : EnsureParentRecordExists fuel env parent fk.foreignColumnName
        (extractCSVValue columnMap record col.columnName) dbSchema tr with
    | mk tr3 err =>
      cases err with
      | some er =>
        simp [if_neg hne, hres]
      | none =>
        simp only [if_neg hne, hres]
        cases hconv : ConvertToDBType (extractCSVValue columnMap record col.columnName)
            col.dataType col.isNullable col.columnDefault with
        | error m => simp [hconv, orNull]
        | ok v => simp [hconv, orNull]
  · intro hfks hcol hemp hfind
    rw [processColumn, hfks, resolveColumnFK, if_pos hcol, hfind]
    simp only [if_pos hemp, resolveColumnFK]
    cases hconv : ConvertToDBType (extractCSVValue columnMap record col.columnName)
        col.dataType col.isNullable col.columnDefault with
    | error m => simp [hconv, orNull]
    | ok v => simp [hconv, orNull]
  · intro hres hconv
    rw [processColumn, hres, hconv]
  · intro hfindp hlen
    rw [extractCSVValue, hfindp]
    show (if p.2 < record.length then record.getD p.2 "" else "") = ""
    rw [if_neg (by omega)]
  · intro hproc hexec
    rw [importRows, hproc]
    simp only [hexec]

/-- Column map of the orders table in CSV order. -/
def cmapOrders : List (String × Nat) := [("id", 0), ("user_id", 1)]

/-- The orders id column. -/
def idCol : ColumnInfo := ⟨"id", IntegerType, false, ⟨"", false⟩⟩

/-- The orders user_id column. -/
def userIdCol : ColumnInfo := ⟨"user_id", IntegerType, false, ⟨"", false⟩⟩

/-- Environment whose probe reports records present but whose statement
execution always fails. -/
def envExecFail : DBEnv :=
  ⟨fun _ _ _ _ => true, fun _ _ _ _ => some "duplicate key", oracleFix⟩

/-- The C8 theorem run concretely on the orders table: a live user_id
value resolves through the parent resolver, an empty user_id skips it, a
bad integer degrades to nil, a short record extracts the empty string,
and a failing insert is logged while the loop continues. -/
theorem c8_row_processing_witness :
    ((processColumn 2 envMiss c1Schema ordersInfo cmapOrders ["9", "3"] userIdCol []).1 =
        (EnsureParentRecordExists 2 envMiss usersInfo fkOrdersUsers.foreignColumnName
          (extractCSVValue cmapOrders ["9", "3"] userIdCol.columnName) c1Schema []).1 ∧
      ((EnsureParentRecordExists 2 envMiss usersInfo fkOrdersUsers.foreignColumnName
          (extractCSVValue cmapOrders ["9", "3"] userIdCol.columnName) c1Schema []).2 =
          none →
        (processColumn 2 envMiss c1Schema ordersInfo cmapOrders ["9", "3"]
            userIdCol []).2 =
          .ok (orNull (ConvertToDBType (extractCSVValue cmapOrders ["9", "3"]
            userIdCol.columnName) userIdCol.dataType userIdCol.isNullable
            userIdCol.columnDefault)))) ∧
    (processColumn 2 envMiss c1Schema ordersInfo cmapOrders ["9", ""] userIdCol [] =
      ([], .ok (orNull (ConvertToDBType (extractCSVValue cmapOrders ["9", ""]
        userIdCol.columnName) userIdCol.dataType userIdCol.isNullable
        userIdCol.columnDefault)))) ∧
    (processColumn 2 envMiss c1Schema ordersInfo cmapOrders ["x", "3"] idCol [] =
      ([], .ok vNull)) ∧
    (extractCSVValue [("id", 0), ("user_id", 5)] ["9"] userIdCol.columnName = "") ∧
    (importRows 2 envExecFail c1Schema ordersInfo cmapOrders [["9", ""]] [] =
      ((importRows 2 envExecFail c1Schema ordersInfo cmapOrders []
          ([] ++ [Event.insertEv ordersInfo.tableName
            (ordersInfo.columns.map (fun c => c.columnName)) [vInt 9, vInt 0]])).1,
        ("Error inserting record into " ++ ordersInfo.tableName ++ ": duplicate key") ::
          (importRows 2 envExecFail c1Schema ordersInfo cmapOrders []
            ([] ++ [Event.insertEv ordersInfo.tableName
              (ordersInfo.columns.map (fun c => c.columnName)) [vInt 9, vInt 0]])).2.1,
        (importRows 2 envExecFail c1Schema ordersInfo cmapOrders []
          ([] ++ [Event.insertEv ordersInfo.tableName
            (ordersInfo.columns.map (fun c => c.columnName)) [vInt 9, vInt 0]])).2.2)) := by
  refine ⟨?_, ?_, ?_, ?_, ?_⟩
  · exact (c8_row_processing 2 envMiss c1Schema ordersInfo cmapOrders ["9", "3"]
      userIdCol [] [] fkOrdersUsers usersInfo [] [] "" ("", 0)).1 rfl rfl (by decide) rfl
  · exact (c8_row_processing 2 envMiss c1Schema ordersInfo cmapOrders ["9", ""]
      userIdCol [] [] fkOrdersUsers usersInfo [] [] "" ("", 0)).2.1 rfl rfl rfl rfl
  · exact (c8_row_processing 2 envMiss c1Schema ordersInfo cmapOrders ["x", "3"]
      idCol [] [] fkOrdersUsers usersInfo [] [] "failed to convert to integer: x"
      ("", 0)).2.2.1 rfl rfl
  · exact (c8_row_processing 2 envMiss c1Schema ordersInfo
      [("id", 0), ("user_id", 5)] ["9"] userIdCol [] [] fkOrdersUsers usersInfo [] [] ""
      ("user_id", 5)).2.2.2.1 rfl (by decide)
  · exact (c8_row_processing 2 envExecFail c1Schema ordersInfo cmapOrders ["9", ""]
      userIdCol [] [] fkOrdersUsers usersInfo [] [vInt 9, vInt 0] "duplicate key"
      ("", 0)).2.2.2.2 rfl rfl

end DBAutoImporter
